import Mathlib

/-! DisconnectPath: the two-probe cut test on a binary grid

A shallow embedding of `src/original/DisconnectPath.cpp` (`dfs` and
`isPossibleToCutPath`) together with the properties of the two functions.

* The C++ `vector<vector<int>>` is a `List (List Int)`; coordinates are `Int`
  as in the source (`int i, int j`).
* The in-place mutation of the grid is explicit state passing: `dfs` returns
  the answer together with the grid it leaves behind.
* The C++ recursion is bounded by a fuel argument that counts nested calls;
  `none` means the fuel ran out.  Every result below shows that fuel
  `rows + cols` is enough.
* Coordinates and sizes are mathematical integers: `i + 1`, `j + 1`, `m - 1`
  and `n - 1` stay within the range of `int` for every grid that fits in
  memory, so no wrap-around is modelled.
-/

namespace DisconnectPath

/-- The grid: a vector of rows of `int` cells. -/
abbrev Grid := List (List Int)

/-- `int m = grid.size();` -/
def rows (grid : Grid) : Int := grid.length

/-- `int n = grid[0].size();` -/
def cols (grid : Grid) : Int := (grid.headD []).length

/-- The read `grid[i][j]`.  The source reads only inside the grid; outside it
the model reads `0`, which is no LAND cell. -/
def cell (grid : Grid) (i j : Int) : Int :=
  if 0 ≤ i ∧ 0 ≤ j then (grid.getD i.toNat []).getD j.toNat 0 else 0

/-- The write `grid[i][j] = v`.  The source writes only inside the grid;
elsewhere the model leaves the grid as it is. -/
def setCell (grid : Grid) (i j : Int) (v : Int) : Grid :=
  if 0 ≤ i ∧ 0 ≤ j then
    grid.set i.toNat ((grid.getD i.toNat []).set j.toNat v)
  else grid

/-- The probe `dfs(i, j, grid)`: the returned pair is the C++ return value and
the grid after the call.  `fuel` bounds the depth of nested calls. -/
def dfs : Nat → Int → Int → Grid → Option (Bool × Grid)
  | 0, _, _, _ => none
  | fuel + 1, i, j, grid =>
    let m := rows grid
    let n := cols grid
    if i = m - 1 ∧ j = n - 1 then
      some (true, grid)
    else if i < 0 ∨ i ≥ m ∨ j < 0 ∨ j ≥ n then
      some (false, grid)
    else if cell grid i j = 1 then
      let grid1 := setCell grid i j 0
      match dfs fuel (i + 1) j grid1 with
      | none => none
      | some (true, grid2) => some (true, grid2)
      | some (false, grid2) => dfs fuel i (j + 1) grid2
    else
      some (false, grid)

/-- The check `isPossibleToCutPath(grid)`: probe, restore the two corners,
probe again, negate. -/
def isPossibleToCutPath (fuel : Nat) (grid : Grid) : Option Bool :=
  let m := rows grid
  let n := cols grid
  match dfs fuel 0 0 grid with
  | none => none
  | some (_, grid1) =>
    let grid2 := setCell grid1 0 0 1
    let grid3 := setCell grid2 (m - 1) (n - 1) 1
    match dfs fuel 0 0 grid3 with
    | none => none
    | some (b, _) => some (!b)

/-- The probe `dfs` with a counter added: the first component of the result is
the depth of nested calls the probe reached (1 for a call that calls no
further), the other two are the return value and the grid after the call. -/
def dfsDepth : Nat → Int → Int → Grid → Option (Nat × Bool × Grid)
  | 0, _, _, _ => none
  | fuel + 1, i, j, grid =>
    let m := rows grid
    let n := cols grid
    if i = m - 1 ∧ j = n - 1 then
      some (1, true, grid)
    else if i < 0 ∨ i ≥ m ∨ j < 0 ∨ j ≥ n then
      some (1, false, grid)
    else if cell grid i j = 1 then
      let grid1 := setCell grid i j 0
      match dfsDepth fuel (i + 1) j grid1 with
      | none => none
      | some (d1, true, grid2) => some (d1 + 1, true, grid2)
      | some (d1, false, grid2) =>
        match dfsDepth fuel i (j + 1) grid2 with
        | none => none
        | some (d2, b, grid3) => some (max d1 d2 + 1, b, grid3)
    else
      some (1, false, grid)

/-! ## Specification vocabulary -/

/-- The grid in which each cell equal to 1 is kept and every other cell is
replaced by 0. -/
def normalize (grid : Grid) : Grid :=
  grid.map (fun r => r.map (fun v => if v = 1 then 1 else 0))

/-- The transposed grid: row `j` of the result is column `j` of `grid`. -/
def transpose (grid : Grid) : Grid :=
  (List.range (cols grid).toNat).map (fun j => grid.map (fun r => r.getD j 0))

/-- A rectangular grid with at least one row and one column: every row is as
long as row 0. -/
def Rect (grid : Grid) : Prop :=
  0 < rows grid ∧ 0 < cols grid ∧ ∀ r ∈ grid, (r.length : Int) = cols grid

/-- A cell coordinate `(row, col)`. -/
abbrev Cell := Int × Int

/-- The bottom-right corner `(rows - 1, cols - 1)`. -/
def corner (grid : Grid) : Cell := (rows grid - 1, cols grid - 1)

/-- The coordinate lies inside the grid. -/
def InGrid (grid : Grid) (c : Cell) : Prop :=
  0 ≤ c.1 ∧ c.1 < rows grid ∧ 0 ≤ c.2 ∧ c.2 < cols grid

/-- One move of a down/right path: one row down or one column right. -/
def Step (a b : Cell) : Prop := b = (a.1 + 1, a.2) ∨ b = (a.1, a.2 + 1)

/-- The sequence `p` starts at `a`, ends at `b`, and each of its moves is one
row down or one column right. -/
def IsPath (p : List Cell) (a b : Cell) : Prop :=
  p.head? = some a ∧ p.getLast? = some b ∧ p.Chain' Step

/-- The sequence `p` is a down/right path from `a` to `b` all of whose cells
are LAND. -/
def LandPath (grid : Grid) (p : List Cell) (a b : Cell) : Prop :=
  IsPath p a b ∧ ∀ c ∈ p, cell grid c.1 c.2 = 1

/-- Some down/right path of LAND cells leads from `a` to `b`. -/
def Connected (grid : Grid) (a b : Cell) : Prop := ∃ p, LandPath grid p a b

/-- The sequence `p` is a down/right path from `a` to the bottom-right corner
in which every cell other than the corner is LAND. -/
def ProbePath (grid : Grid) (p : List Cell) (a : Cell) : Prop :=
  IsPath p a (corner grid) ∧ ∀ c ∈ p, c ≠ corner grid → cell grid c.1 c.2 = 1

/-- Every cell of the grid is WATER. -/
def AllWater (grid : Grid) : Prop := ∀ r ∈ grid, ∀ v ∈ r, v = 0

/-- A down/right path from `(i, j)` to the cell `(m - 1, n - 1)` every cell of
which, before that last one, satisfies `ok`. -/
inductive CornerPath (m n : Int) (ok : Int → Int → Prop) : Int → Int → Prop
  | corner : CornerPath m n ok (m - 1) (n - 1)
  | down {i j : Int} : ok i j → CornerPath m n ok (i + 1) j → CornerPath m n ok i j
  | right {i j : Int} : ok i j → CornerPath m n ok i (j + 1) → CornerPath m n ok i j

/-- The corner can be reached from `(i, j)` through LAND cells, the value of
the corner itself not being looked at. -/
def ToCorner (grid : Grid) (i j : Int) : Prop :=
  CornerPath (rows grid) (cols grid) (fun a b => cell grid a b = 1) i j

/-- The cell `(a, b)` can be reached from `(i, j)` by down/right moves, every
cell on the way, both ends included, being LAND. -/
inductive Reach (grid : Grid) : Int → Int → Int → Int → Prop
  | refl {i j : Int} : cell grid i j = 1 → Reach grid i j i j
  | down {i j a b : Int} : cell grid i j = 1 → Reach grid (i + 1) j a b → Reach grid i j a b
  | right {i j a b : Int} : cell grid i j = 1 → Reach grid i (j + 1) a b → Reach grid i j a b

/-- The greedy walk that prefers the move down: from a LAND cell go down when
the corner can be reached from the cell below, otherwise go right when the
corner can be reached from there. -/
def LowStep (grid : Grid) (a b : Cell) : Prop :=
  cell grid a.1 a.2 = 1 ∧ ToCorner grid b.1 b.2 ∧
    (b = (a.1 + 1, a.2) ∨ (b = (a.1, a.2 + 1) ∧ ¬ ToCorner grid (a.1 + 1) a.2))

/-- The cell `b` lies on the down-preferring greedy walk from `a`. -/
def Low (grid : Grid) (a b : Cell) : Prop := Relation.ReflTransGen (LowStep grid) a b

/-- The greedy walk that prefers the move right. -/
def HighStep (grid : Grid) (a b : Cell) : Prop :=
  cell grid a.1 a.2 = 1 ∧ ToCorner grid b.1 b.2 ∧
    (b = (a.1, a.2 + 1) ∨ (b = (a.1 + 1, a.2) ∧ ¬ ToCorner grid a.1 (a.2 + 1)))

/-- The cell `b` lies on the right-preferring greedy walk from `a`. -/
def High (grid : Grid) (a b : Cell) : Prop := Relation.ReflTransGen (HighStep grid) a b

/-- Between `grid` and `grid'` a cell either keeps its value or goes from LAND
to WATER, the latter only where `R` holds. -/
def Frame (grid grid' : Grid) (R : Int → Int → Prop) : Prop :=
  ∀ a c, cell grid' a c = cell grid a c ∨
    (cell grid a c = 1 ∧ cell grid' a c = 0 ∧ R a c)

/-- What one probe `dfs(i, j, grid)` that returns `b` and leaves `grid'` does. -/
structure ProbePost (grid : Grid) (i j : Int) (b : Bool) (grid' : Grid) : Prop where
  rows_eq : rows grid' = rows grid
  cols_eq : cols grid' = cols grid
  rect : Rect grid'
  ret : b = true ↔ ToCorner grid i j
  frame : Frame grid grid' (Reach grid i j)
  consumed : b = false → ∀ a c, Reach grid i j a c → cell grid' a c = 0
  changed : ∀ a c, cell grid' a c ≠ cell grid a c →
    ¬ ToCorner grid a c ∨ Low grid (i, j) (a, c)
  cleared : b = true →
    CornerPath (rows grid) (cols grid) (fun a c => cell grid a c = 1 ∧ cell grid' a c = 0) i j
  corner_kept : cell grid' (rows grid - 1) (cols grid - 1) = cell grid (rows grid - 1) (cols grid - 1)

/-! ## Reading and writing cells -/

theorem rows_setCell (grid : Grid) (i j v : Int) : rows (setCell grid i j v) = rows grid := by
  unfold setCell rows
  split <;> simp

theorem cols_setCell (grid : Grid) (i j v : Int) : cols (setCell grid i j v) = cols grid := by
  unfold setCell cols
  split
  · cases grid with
    | nil => simp
    | cons r rs =>
      cases h : i.toNat with
      | zero => simp
      | succ k => simp
  · rfl

theorem rows_nonneg (grid : Grid) : 0 ≤ rows grid := by
  unfold rows; omega

theorem cols_nonneg (grid : Grid) : 0 ≤ cols grid := by
  unfold cols; omega

theorem rect_setCell {grid : Grid} (h : Rect grid) (i j v : Int) :
    Rect (setCell grid i j v) := by
  obtain ⟨hm, hn, hr⟩ := h
  refine ⟨by rw [rows_setCell]; exact hm, by rw [cols_setCell]; exact hn, ?_⟩
  intro r hmem
  rw [cols_setCell]
  unfold setCell at hmem
  split at hmem
  · rcases List.mem_or_eq_of_mem_set hmem with h1 | h1
    · exact hr r h1
    · subst h1
      rw [List.length_set]
      by_cases hlt : i.toNat < grid.length
      · rw [List.getD_eq_getElem _ _ hlt]
        exact hr _ (List.getElem_mem hlt)
      · rw [List.set_eq_of_length_le (by omega)] at hmem
        rw [List.getD_eq_default _ _ (by omega)] at hmem ⊢
        exact hr _ hmem
  · exact hr r hmem

/-- A LAND cell lies inside the grid. -/
theorem inGrid_of_land {grid : Grid} (h : Rect grid) {i j : Int}
    (hc : cell grid i j = 1) : InGrid grid (i, j) := by
  obtain ⟨_, _, hr⟩ := h
  unfold cell at hc
  split at hc
  · rename_i hij
    by_cases hlt : i.toNat < grid.length
    · rw [List.getD_eq_getElem _ _ hlt] at hc
      have hlen := hr _ (List.getElem_mem hlt)
      by_cases hlt2 : j.toNat < (grid[i.toNat]).length
      · refine ⟨hij.1, ?_, hij.2, ?_⟩
        · unfold rows; omega
        · show j < cols grid
          omega
      · rw [List.getD_eq_default (grid[i.toNat]) 0 (by omega)] at hc
        omega
    · rw [List.getD_eq_default grid [] (by omega : grid.length ≤ i.toNat)] at hc
      simp at hc
  · omega

/-- Reading after a write inside the grid. -/
theorem cell_setCell {grid : Grid} (h : Rect grid) {i j : Int} (hin : InGrid grid (i, j))
    (v a b : Int) :
    cell (setCell grid i j v) a b = if a = i ∧ b = j then v else cell grid a b := by
  obtain ⟨_, _, hr⟩ := h
  obtain ⟨hi0, hi1, hj0, hj1⟩ := hin
  simp only at hi0 hi1 hj0 hj1
  have hlti : i.toNat < grid.length := by unfold rows at hi1; omega
  have hlen := hr _ (List.getElem_mem hlti)
  have hltj : j.toNat < (grid[i.toNat]).length := by omega
  have hs : setCell grid i j v
      = grid.set i.toNat ((grid.getD i.toNat []).set j.toNat v) := by
    unfold setCell
    rw [if_pos ⟨hi0, hj0⟩]
  rw [hs]
  unfold cell
  by_cases hab : 0 ≤ a ∧ 0 ≤ b
  · rw [if_pos hab, if_pos hab]
    simp only [List.getD_eq_getElem?_getD, List.getElem?_set]
    by_cases hai : a = i
    · subst hai
      by_cases hbj : b = j
      · subst hbj
        simp [hlti, hltj]
      · have : ¬ (j.toNat = b.toNat) := by omega
        simp [hlti, hbj, this]
    · have : ¬ (i.toNat = a.toNat) := by omega
      simp [hai, this]
  · rw [if_neg hab, if_neg hab]
    have : ¬ (a = i ∧ b = j) := by
      rintro ⟨rfl, rfl⟩
      exact hab ⟨hi0, hj0⟩
    rw [if_neg this]

/-! ## Paths to the corner -/

theorem CornerPath.bounds {m n : Int} {ok : Int → Int → Prop} {i j : Int}
    (h : CornerPath m n ok i j) : i ≤ m - 1 ∧ j ≤ n - 1 := by
  induction h with
  | corner => exact ⟨le_refl _, le_refl _⟩
  | down _ _ ih => omega
  | right _ _ ih => omega

/-- Changing `ok` is harmless where it is kept on the cells that matter: those
down and right of the start from which the corner is reached. -/
theorem CornerPath.weaken_region {m n : Int} {ok ok' : Int → Int → Prop} {i j : Int}
    (h : CornerPath m n ok i j)
    (hok : ∀ a c, i ≤ a → j ≤ c → CornerPath m n ok a c → ok a c → ok' a c) :
    CornerPath m n ok' i j := by
  induction h with
  | corner => exact CornerPath.corner
  | @down i j hij hp ih =>
    refine CornerPath.down (hok i j (le_refl _) (le_refl _) (CornerPath.down hij hp) hij) ?_
    exact ih (fun a c ha hc => hok a c (by omega) hc)
  | @right i j hij hp ih =>
    refine CornerPath.right (hok i j (le_refl _) (le_refl _) (CornerPath.right hij hp) hij) ?_
    exact ih (fun a c ha hc => hok a c ha (by omega))

theorem CornerPath.weaken {m n : Int} {ok ok' : Int → Int → Prop} {i j : Int}
    (h : CornerPath m n ok i j) (hok : ∀ a c, ok a c → ok' a c) :
    CornerPath m n ok' i j :=
  h.weaken_region (fun a c _ _ _ => hok a c)

theorem CornerPath.cases_ne {m n : Int} {ok : Int → Int → Prop} {i j : Int}
    (h : CornerPath m n ok i j) (hne : ¬ (i = m - 1 ∧ j = n - 1)) :
    ok i j ∧ (CornerPath m n ok (i + 1) j ∨ CornerPath m n ok i (j + 1)) := by
  cases h with
  | corner => exact absurd ⟨rfl, rfl⟩ hne
  | down h1 h2 => exact ⟨h1, Or.inl h2⟩
  | right h1 h2 => exact ⟨h1, Or.inr h2⟩

/-- From a cell outside the grid the corner is not reached. -/
theorem not_toCorner_of_not_inGrid {grid : Grid} (hr : Rect grid) {i j : Int}
    (h : ¬ InGrid grid (i, j)) : ¬ ToCorner grid i j := by
  intro ht
  apply h
  by_cases hc : i = rows grid - 1 ∧ j = cols grid - 1
  · obtain ⟨rfl, rfl⟩ := hc
    obtain ⟨hm, hn, _⟩ := hr
    exact ⟨by show (0:Int) ≤ rows grid - 1; omega, by show rows grid - 1 < rows grid; omega,
      by show (0:Int) ≤ cols grid - 1; omega, by show cols grid - 1 < cols grid; omega⟩
  · exact inGrid_of_land hr (CornerPath.cases_ne ht hc).1

/-! ## Reachability through LAND -/

theorem Reach.le_target {grid : Grid} {i j a b : Int} (h : Reach grid i j a b) : i ≤ a ∧ j ≤ b := by
  induction h with
  | refl _ => exact ⟨le_refl _, le_refl _⟩
  | down _ _ ih => omega
  | right _ _ ih => omega

theorem Reach.land_left {grid : Grid} {i j a b : Int} (h : Reach grid i j a b) :
    cell grid i j = 1 := by
  cases h with
  | refl h => exact h
  | down h _ => exact h
  | right h _ => exact h

theorem Reach.land_right {grid : Grid} {i j a b : Int} (h : Reach grid i j a b) :
    cell grid a b = 1 := by
  induction h with
  | refl h => exact h
  | down _ _ ih => exact ih
  | right _ _ ih => exact ih

theorem Reach.append {grid : Grid} {i j a b c d : Int} (h : Reach grid i j a b)
    (h2 : Reach grid a b c d) : Reach grid i j c d := by
  induction h with
  | refl _ => exact h2
  | down h _ ih => exact Reach.down h (ih h2)
  | right h _ ih => exact Reach.right h (ih h2)

theorem Reach.mono_land_region {grid grid' : Grid} {i j a b : Int} (h : Reach grid i j a b)
    (hle : ∀ x y, i ≤ x → j ≤ y → cell grid x y = 1 → cell grid' x y = 1) :
    Reach grid' i j a b := by
  induction h with
  | @refl i j h => exact Reach.refl (hle i j (le_refl _) (le_refl _) h)
  | @down i j a b h _ ih =>
    exact Reach.down (hle i j (le_refl _) (le_refl _) h)
      (ih (fun x y hx hy => hle x y (by omega) hy))
  | @right i j a b h _ ih =>
    exact Reach.right (hle i j (le_refl _) (le_refl _) h)
      (ih (fun x y hx hy => hle x y hx (by omega)))

theorem Reach.mono_land {grid grid' : Grid} {i j a b : Int} (h : Reach grid i j a b)
    (hle : ∀ x y, cell grid x y = 1 → cell grid' x y = 1) : Reach grid' i j a b :=
  h.mono_land_region (fun x y _ _ => hle x y)

/-- A cell from which the corner is reached passes this on to every cell that
reaches it. -/
theorem Reach.toCorner {grid : Grid} {i j a b : Int} (h : Reach grid i j a b)
    (hc : ToCorner grid a b) : ToCorner grid i j := by
  induction h with
  | refl _ => exact hc
  | down h _ ih => exact CornerPath.down h (ih hc)
  | right h _ ih => exact CornerPath.right h (ih hc)

/-- The last move of a walk that is not empty. -/
theorem Reach.pred {grid : Grid} {i j a b : Int} (h : Reach grid i j a b)
    (hne : ¬ (i = a ∧ j = b)) : Reach grid i j (a - 1) b ∨ Reach grid i j a (b - 1) := by
  induction h with
  | refl _ => exact absurd ⟨rfl, rfl⟩ hne
  | @down i j a b h hp ih =>
    by_cases he : i + 1 = a ∧ j = b
    · obtain ⟨rfl, rfl⟩ := he
      left
      simpa using Reach.refl h
    · rcases ih he with h1 | h1
      · exact Or.inl (Reach.down h h1)
      · exact Or.inr (Reach.down h h1)
  | @right i j a b h hp ih =>
    by_cases he : i = a ∧ j + 1 = b
    · obtain ⟨rfl, rfl⟩ := he
      right
      simpa using Reach.refl h
    · rcases ih he with h1 | h1
      · exact Or.inl (Reach.right h h1)
      · exact Or.inr (Reach.right h h1)

/-- A walk meets every anti-diagonal between its two ends. -/
theorem Reach.mid {grid : Grid} {i j a b : Int} (h : Reach grid i j a b) (k : Int)
    (h1 : i + j ≤ k) (h2 : k ≤ a + b) :
    ∃ c d, c + d = k ∧ Reach grid i j c d ∧ Reach grid c d a b := by
  induction h with
  | @refl i j h => exact ⟨i, j, by omega, Reach.refl h, Reach.refl h⟩
  | @down i j a b h hp ih =>
    by_cases hk : i + j = k
    · exact ⟨i, j, hk, Reach.refl h, Reach.down h hp⟩
    · obtain ⟨c, d, hcd, hl, hr⟩ := ih (by omega) h2
      exact ⟨c, d, hcd, Reach.down h hl, hr⟩
  | @right i j a b h hp ih =>
    by_cases hk : i + j = k
    · exact ⟨i, j, hk, Reach.refl h, Reach.right h hp⟩
    · obtain ⟨c, d, hcd, hl, hr⟩ := ih (by omega) h2
      exact ⟨c, d, hcd, Reach.right h hl, hr⟩

/-- With a LAND corner, reaching the corner is reaching it through LAND. -/
theorem reach_of_toCorner {grid : Grid} {i j : Int} (h : ToCorner grid i j)
    (hc : cell grid (rows grid - 1) (cols grid - 1) = 1) :
    Reach grid i j (rows grid - 1) (cols grid - 1) := by
  unfold ToCorner at h
  induction h with
  | corner => exact Reach.refl hc
  | down h _ ih => exact Reach.down h ih
  | right h _ ih => exact Reach.right h ih

theorem toCorner_of_reach {grid : Grid} {i j : Int}
    (h : Reach grid i j (rows grid - 1) (cols grid - 1)) : ToCorner grid i j :=
  h.toCorner CornerPath.corner

/-! ## Frames -/

theorem Frame.refl (grid : Grid) (R : Int → Int → Prop) : Frame grid grid R :=
  fun _ _ => Or.inl rfl

theorem Frame.land {grid grid' : Grid} {R : Int → Int → Prop} (h : Frame grid grid' R)
    {a c : Int} (h1 : cell grid' a c = 1) : cell grid a c = 1 := by
  rcases h a c with h2 | ⟨h2, h3, _⟩
  · rw [← h2]; exact h1
  · exact h2

theorem Frame.keep {grid grid' : Grid} {R : Int → Int → Prop} (h : Frame grid grid' R)
    {a c : Int} (h1 : cell grid a c ≠ 1) : cell grid' a c = cell grid a c := by
  rcases h a c with h2 | ⟨h2, _, _⟩
  · exact h2
  · exact absurd h2 h1

theorem Frame.zero {grid grid' : Grid} {R : Int → Int → Prop} (h : Frame grid grid' R)
    {a c : Int} (h1 : cell grid a c = 0) : cell grid' a c = 0 := by
  rw [h.keep (by omega)]; exact h1

theorem Frame.comp {grid g1 g2 : Grid} {R1 R2 R : Int → Int → Prop}
    (h1 : Frame grid g1 R1) (h2 : Frame g1 g2 R2)
    (hR1 : ∀ a c, R1 a c → R a c) (hR2 : ∀ a c, R2 a c → R a c) : Frame grid g2 R := by
  intro a c
  rcases h1 a c with e1 | ⟨l1, z1, r1⟩
  · rcases h2 a c with e2 | ⟨l2, z2, r2⟩
    · left; rw [e2, e1]
    · right; exact ⟨by rw [← e1]; exact l2, z2, hR2 a c r2⟩
  · right; exact ⟨l1, h2.zero z1, hR1 a c r1⟩

theorem frame_setCell {grid : Grid} (hr : Rect grid) {i j : Int} (hin : InGrid grid (i, j))
    (hl : cell grid i j = 1) :
    Frame grid (setCell grid i j 0) (fun a c => a = i ∧ c = j) := by
  intro a c
  rw [cell_setCell hr hin]
  by_cases h : a = i ∧ c = j
  · right
    obtain ⟨rfl, rfl⟩ := h
    exact ⟨hl, by simp, rfl, rfl⟩
  · left; rw [if_neg h]

/-- Writing a cell does not matter for reaching the corner from a cell that is
not up and left of it. -/
theorem toCorner_setCell {grid : Grid} (hr : Rect grid) {i j : Int} (hin : InGrid grid (i, j))
    (v : Int) {a c : Int} (hac : i < a ∨ j < c) :
    ToCorner (setCell grid i j v) a c ↔ ToCorner grid a c := by
  unfold ToCorner
  rw [rows_setCell, cols_setCell]
  constructor
  · intro h
    refine h.weaken_region (fun x y hx hy _ hxy => ?_)
    rw [cell_setCell hr hin, if_neg (by omega)] at hxy
    exact hxy
  · intro h
    refine h.weaken_region (fun x y hx hy _ hxy => ?_)
    rw [cell_setCell hr hin, if_neg (by omega)]
    exact hxy

theorem reach_setCell {grid : Grid} (hr : Rect grid) {i j : Int} (hin : InGrid grid (i, j))
    (v : Int) {x y a c : Int} (hxy : i < x ∨ j < y) (h : Reach grid x y a c) :
    Reach (setCell grid i j v) x y a c := by
  refine h.mono_land_region (fun x' y' hx hy hl => ?_)
  rw [cell_setCell hr hin, if_neg (by omega)]
  exact hl

/-! ## The greedy walks -/

theorem Low.le_low {grid : Grid} {s t : Cell} (h : Low grid s t) : s.1 ≤ t.1 ∧ s.2 ≤ t.2 := by
  induction h with
  | refl => exact ⟨le_refl _, le_refl _⟩
  | @tail b c _ hs ih =>
    obtain ⟨_, _, hbc⟩ := hs
    rcases hbc with rfl | ⟨rfl, _⟩ <;> simp <;> omega

theorem High.le_high {grid : Grid} {s t : Cell} (h : High grid s t) : s.1 ≤ t.1 ∧ s.2 ≤ t.2 := by
  induction h with
  | refl => exact ⟨le_refl _, le_refl _⟩
  | @tail b c _ hs ih =>
    obtain ⟨_, _, hbc⟩ := hs
    rcases hbc with rfl | ⟨rfl, _⟩ <;> simp <;> omega

/-- The down-preferring walk is the same in two grids that agree, down and
right of its start, on which cells reach the corner. -/
theorem Low.congr {grid grid' : Grid} {s t : Cell} (h : Low grid' s t)
    (hc : ∀ a c, s.1 ≤ a → s.2 ≤ c → (ToCorner grid' a c ↔ ToCorner grid a c))
    (hl : ∀ a c, cell grid' a c = 1 → cell grid a c = 1) : Low grid s t := by
  induction h with
  | refl => exact Relation.ReflTransGen.refl
  | @tail b c hsb hs ih =>
    have hle := Low.le_low hsb
    obtain ⟨h1, h2, h3⟩ := hs
    refine Relation.ReflTransGen.tail ih ⟨hl _ _ h1, ?_, ?_⟩
    · rcases h3 with rfl | ⟨rfl, _⟩
      · exact (hc _ _ (by simp; omega) (by simp; omega)).1 h2
      · exact (hc _ _ (by simp; omega) (by simp; omega)).1 h2
    · rcases h3 with rfl | ⟨rfl, h4⟩
      · exact Or.inl rfl
      · exact Or.inr ⟨rfl, fun h5 => h4 ((hc _ _ (by omega) (by omega)).2 h5)⟩

/-! ## A probe that fails -/

/-- A failed probe changes no cell from which the corner is reached. -/
theorem ProbePost.toCorner_iff {grid grid' : Grid} {i j : Int}
    (hp : ProbePost grid i j false grid') (a c : Int) :
    ToCorner grid' a c ↔ ToCorner grid a c := by
  unfold ToCorner
  rw [hp.rows_eq, hp.cols_eq]
  constructor
  · intro h
    exact h.weaken (fun x y hxy => hp.frame.land hxy)
  · intro h
    refine h.weaken_region (fun x y _ _ hx hxy => ?_)
    rcases hp.frame x y with e | ⟨_, _, hreach⟩
    · rw [e]; exact hxy
    · have := hp.ret.2 (hreach.toCorner hx)
      simp at this

/-- After a failed probe a walk through LAND either is still there or ends in
a cell the probe has consumed. -/
theorem ProbePost.reach_or_zero {grid grid' : Grid} {i j : Int}
    (hp : ProbePost grid i j false grid') {x y a c : Int} (h : Reach grid x y a c) :
    Reach grid' x y a c ∨ cell grid' a c = 0 := by
  induction h with
  | @refl x y h =>
    rcases hp.frame x y with e | ⟨_, z, _⟩
    · left; exact Reach.refl (by rw [e]; exact h)
    · right; exact z
  | @down x y a c h hq ih =>
    rcases ih with h1 | h1
    · rcases hp.frame x y with e | ⟨_, _, hreach⟩
      · left; exact Reach.down (by rw [e]; exact h) h1
      · right; exact hp.consumed rfl a c (hreach.append (Reach.down h hq))
    · exact Or.inr h1
  | @right x y a c h hq ih =>
    rcases ih with h1 | h1
    · rcases hp.frame x y with e | ⟨_, _, hreach⟩
      · left; exact Reach.right (by rw [e]; exact h) h1
      · right; exact hp.consumed rfl a c (hreach.append (Reach.right h hq))
    · exact Or.inr h1

/-! ## Unfolding the probe -/

theorem dfs_corner (fuel : Nat) (grid : Grid) :
    dfs (fuel + 1) (rows grid - 1) (cols grid - 1) grid = some (true, grid) := by
  simp [dfs]

theorem dfs_outside (fuel : Nat) {i j : Int} {grid : Grid}
    (hc : ¬ (i = rows grid - 1 ∧ j = cols grid - 1)) (ho : ¬ InGrid grid (i, j)) :
    dfs (fuel + 1) i j grid = some (false, grid) := by
  have : i < 0 ∨ i ≥ rows grid ∨ j < 0 ∨ j ≥ cols grid := by
    unfold InGrid at ho
    simp only at ho
    omega
  simp only [dfs]
  rw [if_neg hc, if_pos this]

theorem dfs_water (fuel : Nat) {i j : Int} {grid : Grid}
    (hc : ¬ (i = rows grid - 1 ∧ j = cols grid - 1)) (hw : cell grid i j ≠ 1) :
    dfs (fuel + 1) i j grid = some (false, grid) := by
  simp only [dfs]
  rw [if_neg hc, if_neg hw]
  split <;> rfl

theorem dfs_land (fuel : Nat) {i j : Int} {grid : Grid}
    (hc : ¬ (i = rows grid - 1 ∧ j = cols grid - 1)) (hin : InGrid grid (i, j))
    (hl : cell grid i j = 1) :
    dfs (fuel + 1) i j grid =
      match dfs fuel (i + 1) j (setCell grid i j 0) with
      | none => none
      | some (true, grid2) => some (true, grid2)
      | some (false, grid2) => dfs fuel i (j + 1) grid2 := by
  have : ¬ (i < 0 ∨ i ≥ rows grid ∨ j < 0 ∨ j ≥ cols grid) := by
    unfold InGrid at hin
    simp only at hin
    omega
  simp only [dfs]
  rw [if_neg hc, if_neg this, if_pos hl]

/-! ## The four cases of one probe -/

theorem post_corner {grid : Grid} (hr : Rect grid) :
    ProbePost grid (rows grid - 1) (cols grid - 1) true grid where
  rows_eq := rfl
  cols_eq := rfl
  rect := hr
  ret := ⟨fun _ => CornerPath.corner, fun _ => rfl⟩
  frame := Frame.refl _ _
  consumed := fun h => by cases h
  changed := fun a c h => absurd rfl h
  cleared := fun _ => CornerPath.corner
  corner_kept := rfl

theorem post_dead {grid : Grid} (hr : Rect grid) {i j : Int}
    (hnc : ¬ (i = rows grid - 1 ∧ j = cols grid - 1)) (hw : cell grid i j ≠ 1) :
    ProbePost grid i j false grid where
  rows_eq := rfl
  cols_eq := rfl
  rect := hr
  ret := ⟨fun h => (by cases h), fun h => absurd (CornerPath.cases_ne h hnc).1 hw⟩
  frame := Frame.refl _ _
  consumed := fun _ a c hreach => absurd hreach.land_left hw
  changed := fun a c h => absurd rfl h
  cleared := fun h => by cases h
  corner_kept := rfl

theorem post_down {grid g2 : Grid} (hr : Rect grid) {i j : Int}
    (hnc : ¬ (i = rows grid - 1 ∧ j = cols grid - 1))
    (hin : InGrid grid (i, j)) (hl : cell grid i j = 1)
    (p1 : ProbePost (setCell grid i j 0) (i + 1) j true g2) :
    ProbePost grid i j true g2 := by
  have f0 := frame_setCell hr hin hl
  have hz : cell g2 i j = 0 :=
    p1.frame.zero (by rw [cell_setCell hr hin]; simp)
  have hdown : ToCorner grid (i + 1) j :=
    (toCorner_setCell hr hin 0 (Or.inl (by omega))).1 (p1.ret.1 rfl)
  refine ⟨p1.rows_eq.trans (rows_setCell _ _ _ _), p1.cols_eq.trans (cols_setCell _ _ _ _),
    p1.rect, iff_of_true rfl (CornerPath.down hl hdown), ?_, fun h => (by cases h), ?_, ?_, ?_⟩
  · refine f0.comp p1.frame ?_ ?_
    · rintro a c ⟨rfl, rfl⟩
      exact Reach.refl hl
    · intro a c h
      exact Reach.down hl (h.mono_land (fun x y hxy => f0.land hxy))
  · intro a c hne
    by_cases hac : a = i ∧ c = j
    · obtain ⟨rfl, rfl⟩ := hac
      exact Or.inr Relation.ReflTransGen.refl
    · have e0 : cell (setCell grid i j 0) a c = cell grid a c := by
        rw [cell_setCell hr hin, if_neg hac]
      have hne1 : cell g2 a c ≠ cell (setCell grid i j 0) a c := by rw [e0]; exact hne
      rcases p1.frame a c with e | ⟨_, _, hreach⟩
      · exact absurd e hne1
      · have hle := hreach.le_target
        rcases p1.changed a c hne1 with hd | hlow
        · left
          intro ht
          exact hd ((toCorner_setCell hr hin 0 (Or.inl (by omega))).2 ht)
        · right
          refine Relation.ReflTransGen.head (b := (i + 1, j)) ⟨hl, hdown, Or.inl rfl⟩ ?_
          refine Low.congr hlow (fun x y hx hy => ?_) (fun x y hxy => f0.land hxy)
          exact toCorner_setCell hr hin 0 (Or.inl (by simp at hx; omega))
  · intro _
    refine CornerPath.down ⟨hl, hz⟩ ?_
    have := p1.cleared rfl
    rw [rows_setCell, cols_setCell] at this
    exact this.weaken (fun a c h => ⟨f0.land h.1, h.2⟩)
  · have := p1.corner_kept
    rw [rows_setCell, cols_setCell, cell_setCell hr hin, if_neg (by omega)] at this
    exact this

theorem post_right {grid g2 g3 : Grid} (hr : Rect grid) {i j : Int} {b : Bool}
    (hnc : ¬ (i = rows grid - 1 ∧ j = cols grid - 1))
    (hin : InGrid grid (i, j)) (hl : cell grid i j = 1)
    (p1 : ProbePost (setCell grid i j 0) (i + 1) j false g2)
    (p2 : ProbePost g2 i (j + 1) b g3) :
    ProbePost grid i j b g3 := by
  have f0 := frame_setCell hr hin hl
  have hrows : rows g2 = rows grid := p1.rows_eq.trans (rows_setCell _ _ _ _)
  have hcols : cols g2 = cols grid := p1.cols_eq.trans (cols_setCell _ _ _ _)
  have f02 : Frame grid g2 (Reach grid i j) := by
    refine f0.comp p1.frame ?_ ?_
    · rintro a c ⟨rfl, rfl⟩
      exact Reach.refl hl
    · intro a c h
      exact Reach.down hl (h.mono_land (fun x y hxy => f0.land hxy))
  have hz : cell g3 i j = 0 :=
    p2.frame.zero (p1.frame.zero (by rw [cell_setCell hr hin]; simp))
  have hdown : ¬ ToCorner grid (i + 1) j := by
    intro h
    have := p1.ret.2 ((toCorner_setCell hr hin 0 (Or.inl (by omega))).2 h)
    cases this
  have key : ∀ a c, i < a ∨ j < c → (ToCorner g2 a c ↔ ToCorner grid a c) :=
    fun a c hac => (p1.toCorner_iff a c).trans (toCorner_setCell hr hin 0 hac)
  refine ⟨p2.rows_eq.trans hrows, p2.cols_eq.trans hcols, p2.rect, ?_, ?_, ?_, ?_, ?_, ?_⟩
  · constructor
    · intro hb
      exact CornerPath.right hl ((key _ _ (Or.inr (by omega))).1 (p2.ret.1 hb))
    · intro ht
      rcases (CornerPath.cases_ne ht hnc).2 with h | h
      · exact absurd h hdown
      · exact p2.ret.2 ((key _ _ (Or.inr (by omega))).2 h)
  · refine f02.comp p2.frame (fun _ _ h => h) ?_
    intro a c h
    exact Reach.right hl (h.mono_land (fun x y hxy => f02.land hxy))
  · intro hb a c hreach
    cases hreach with
    | refl _ => exact hz
    | down _ hq =>
      exact p2.frame.zero
        (p1.consumed rfl a c (reach_setCell hr hin 0 (Or.inl (by omega)) hq))
    | right _ hq =>
      rcases p1.reach_or_zero (reach_setCell hr hin 0 (Or.inr (by omega)) hq) with h | h
      · exact p2.consumed hb a c h
      · exact p2.frame.zero h
  · intro a c hne
    by_cases hac : a = i ∧ c = j
    · obtain ⟨rfl, rfl⟩ := hac
      exact Or.inr Relation.ReflTransGen.refl
    · have e0 : cell (setCell grid i j 0) a c = cell grid a c := by
        rw [cell_setCell hr hin, if_neg hac]
      by_cases e1 : cell g2 a c = cell (setCell grid i j 0) a c
      · have hne2 : cell g3 a c ≠ cell g2 a c := by rw [e1, e0]; exact hne
        rcases p2.frame a c with e | ⟨_, _, hreach2⟩
        · exact absurd e hne2
        · have hle := hreach2.le_target
          rcases p2.changed a c hne2 with hd | hlow
          · left
            intro ht
            exact hd ((key _ _ (Or.inr (by omega))).2 ht)
          · by_cases hb : ToCorner grid i (j + 1)
            · right
              refine Relation.ReflTransGen.head (b := (i, j + 1))
                ⟨hl, hb, Or.inr ⟨rfl, hdown⟩⟩ ?_
              refine Low.congr hlow (fun x y hx hy => ?_) (fun x y hxy => f02.land hxy)
              exact key _ _ (Or.inr (by simp at hy; omega))
            · left
              intro ht
              apply hb
              have h2 : ToCorner g2 a c := (key _ _ (Or.inr (by omega))).2 ht
              exact (key _ _ (Or.inr (by omega))).1 (hreach2.toCorner h2)
      · rcases p1.frame a c with e | ⟨_, _, hreach1⟩
        · exact absurd e e1
        · left
          intro ht
          apply hdown
          have hle := hreach1.le_target
          have h1 : ToCorner (setCell grid i j 0) a c :=
            (toCorner_setCell hr hin 0 (Or.inl (by omega))).2 ht
          exact (toCorner_setCell hr hin 0 (Or.inl (by omega))).1 (hreach1.toCorner h1)
  · intro hb
    refine CornerPath.right ⟨hl, hz⟩ ?_
    have := p2.cleared hb
    rw [hrows, hcols] at this
    exact this.weaken (fun a c h => ⟨f02.land h.1, h.2⟩)
  · have h1 := p1.corner_kept
    rw [rows_setCell, cols_setCell, cell_setCell hr hin, if_neg (by omega)] at h1
    have h3 := p2.corner_kept
    rw [hrows, hcols] at h3
    exact h3.trans h1

/-- The probe returns on fuel `rows - i + (cols - j)` from a cell of the grid
and on fuel 1 from any other origin, and what it returns and leaves behind is
described by `ProbePost`. -/
theorem dfs_spec : ∀ (fuel : Nat) (i j : Int) (grid : Grid), Rect grid → 1 ≤ fuel →
    (InGrid grid (i, j) → rows grid - i + (cols grid - j) ≤ fuel) →
    ∃ b grid', dfs fuel i j grid = some (b, grid') ∧ ProbePost grid i j b grid' := by
  intro fuel
  induction fuel with
  | zero => intro i j grid _ h; omega
  | succ fuel ih =>
    intro i j grid hr _ hfuel
    by_cases hc : i = rows grid - 1 ∧ j = cols grid - 1
    · obtain ⟨rfl, rfl⟩ := hc
      exact ⟨true, grid, dfs_corner fuel grid, post_corner hr⟩
    by_cases hin : InGrid grid (i, j)
    swap
    · exact ⟨false, grid, dfs_outside fuel hc hin,
        post_dead hr hc (fun h => hin (inGrid_of_land hr h))⟩
    by_cases hl : cell grid i j = 1
    swap
    · exact ⟨false, grid, dfs_water fuel hc hl, post_dead hr hc hl⟩
    have hf := hfuel hin
    obtain ⟨hi0, hi1, hj0, hj1⟩ := id hin
    simp only at hi0 hi1 hj0 hj1
    have hr1 := rect_setCell hr i j 0
    obtain ⟨b1, g2, e1, p1⟩ := ih (i + 1) j (setCell grid i j 0) hr1 (by omega) (by
      intro _
      rw [rows_setCell, cols_setCell]
      omega)
    rw [dfs_land fuel hc hin hl, e1]
    cases b1 with
    | true => exact ⟨true, g2, rfl, post_down hr hc hin hl p1⟩
    | false =>
      have hrows : rows g2 = rows grid := p1.rows_eq.trans (rows_setCell _ _ _ _)
      have hcols : cols g2 = cols grid := p1.cols_eq.trans (cols_setCell _ _ _ _)
      obtain ⟨b2, g3, e2, p2⟩ := ih i (j + 1) g2 p1.rect (by omega) (by
        intro _
        rw [hrows, hcols]
        omega)
      exact ⟨b2, g3, e2, post_right hr hc hin hl p1 p2⟩

/-! ## The extreme walks and the cut cell -/

/-- Among the cells of one anti-diagonal that lie on a walk from `s` to the
corner, the cell of the down-preferring walk is the lowest. -/
theorem Low.lowest {grid : Grid} {s t : Cell} (h : Low grid s t) :
    ∀ c d, Reach grid s.1 s.2 c d → ToCorner grid c d → c + d = t.1 + t.2 → c ≤ t.1 := by
  induction h with
  | refl =>
    intro c d hreach _ hcd
    have := hreach.le_target
    omega
  | @tail b t hsb hs ih =>
    intro c d hreach hcor hcd
    have hle := Low.le_low hsb
    obtain ⟨_, _, hstep⟩ := hs
    have hdiag : t.1 + t.2 = b.1 + b.2 + 1 := by
      rcases hstep with rfl | ⟨rfl, _⟩ <;> simp <;> omega
    have hne : ¬ (s.1 = c ∧ s.2 = d) := by omega
    rcases hreach.pred hne with hp | hp
    · have hcor1 : ToCorner grid (c - 1) d :=
        CornerPath.down hp.land_right (by simpa using hcor)
      have h1 := ih (c - 1) d hp hcor1 (by omega)
      rcases hstep with rfl | ⟨rfl, hno⟩
      · simp; omega
      · simp at hcd ⊢
        by_contra hgt
        have hc : c = b.1 + 1 := by omega
        have hd : d = b.2 := by omega
        subst hc hd
        exact hno hcor
    · have hcor1 : ToCorner grid c (d - 1) :=
        CornerPath.right hp.land_right (by simpa using hcor)
      have h1 := ih c (d - 1) hp hcor1 (by omega)
      rcases hstep with rfl | ⟨rfl, _⟩ <;> simp <;> omega

/-- Among the cells of one anti-diagonal that lie on a walk from `s` to the
corner, the cell of the right-preferring walk is the highest. -/
theorem High.highest {grid : Grid} {s t : Cell} (h : High grid s t) :
    ∀ c d, Reach grid s.1 s.2 c d → ToCorner grid c d → c + d = t.1 + t.2 → t.1 ≤ c := by
  induction h with
  | refl =>
    intro c d hreach _ hcd
    have := hreach.le_target
    omega
  | @tail b t hsb hs ih =>
    intro c d hreach hcor hcd
    have hle := High.le_high hsb
    obtain ⟨_, _, hstep⟩ := hs
    have hdiag : t.1 + t.2 = b.1 + b.2 + 1 := by
      rcases hstep with rfl | ⟨rfl, _⟩ <;> simp <;> omega
    have hne : ¬ (s.1 = c ∧ s.2 = d) := by omega
    rcases hreach.pred hne with hp | hp
    · have hcor1 : ToCorner grid (c - 1) d :=
        CornerPath.down hp.land_right (by simpa using hcor)
      have h1 := ih (c - 1) d hp hcor1 (by omega)
      rcases hstep with rfl | ⟨rfl, _⟩ <;> simp <;> omega
    · have hcor1 : ToCorner grid c (d - 1) :=
        CornerPath.right hp.land_right (by simpa using hcor)
      have h1 := ih c (d - 1) hp hcor1 (by omega)
      rcases hstep with rfl | ⟨rfl, hno⟩
      · simp; omega
      · simp at hcd ⊢
        by_contra hgt
        have hc : c = b.1 := by omega
        have hd : d = b.2 + 1 := by omega
        subst hc hd
        exact hno hcor

/-- A cell on both greedy walks from the source is on every walk from the
source to the corner: with that cell set to WATER no walk is left. -/
theorem no_reach_of_low_high {grid : Grid} (hr : Rect grid) {x y : Int}
    (hin : InGrid grid (x, y)) (hlow : Low grid (0, 0) (x, y))
    (hhigh : High grid (0, 0) (x, y)) :
    ¬ Reach (setCell grid x y 0) 0 0 (rows grid - 1) (cols grid - 1) := by
  intro hreach
  obtain ⟨hx0, hx1, hy0, hy1⟩ := id hin
  simp only at hx0 hx1 hy0 hy1
  obtain ⟨c, d, hcd, h1, h2⟩ := hreach.mid (x + y) (by omega) (by omega)
  have hle : ∀ a b, cell (setCell grid x y 0) a b = 1 → cell grid a b = 1 := by
    intro a b hab
    rw [cell_setCell hr hin] at hab
    split at hab
    · omega
    · exact hab
  have hcor : ToCorner grid c d := toCorner_of_reach (h2.mono_land hle)
  have hlo := hlow.lowest c d (h1.mono_land hle) hcor hcd
  have hhi := hhigh.highest c d (h1.mono_land hle) hcor hcd
  simp only at hlo hhi
  have hc : c = x := by omega
  have hd : d = y := by omega
  subst hc hd
  have := h1.land_right
  rw [cell_setCell hr hin] at this
  simp at this

/-- From a cell that reaches the corner and is not the corner, the
right-preferring walk has a next cell. -/
theorem exists_highStep {grid : Grid} {x y : Int} (h : ToCorner grid x y)
    (hnc : ¬ (x = rows grid - 1 ∧ y = cols grid - 1)) :
    ∃ t : Cell, HighStep grid (x, y) t ∧ t.1 + t.2 = x + y + 1 := by
  obtain ⟨hl, hnext⟩ := CornerPath.cases_ne h hnc
  by_cases hright : ToCorner grid x (y + 1)
  · exact ⟨(x, y + 1), ⟨hl, hright, Or.inl rfl⟩, by simp; omega⟩
  · rcases hnext with hd | hd
    · exact ⟨(x + 1, y), ⟨hl, hd, Or.inr ⟨rfl, hright⟩⟩, by simp; omega⟩
    · exact absurd hd hright

/-! ## The two probes of the check -/

theorem inGrid_zero {grid : Grid} (hr : Rect grid) : InGrid grid (0, 0) :=
  ⟨le_refl _, hr.1, le_refl _, hr.2.1⟩

theorem inGrid_corner {grid : Grid} (hr : Rect grid) :
    InGrid grid (rows grid - 1, cols grid - 1) := by
  obtain ⟨hm, hn, _⟩ := hr
  unfold InGrid
  simp only
  omega

/-- The grid the second probe starts from: the two corners are LAND, every
other cell is as the first probe left it. -/
theorem cell_restore {grid g1 : Grid} (hr1 : Rect g1) (hrows : rows g1 = rows grid)
    (hcols : cols g1 = cols grid) (a c : Int) :
    cell (setCell (setCell g1 0 0 1) (rows grid - 1) (cols grid - 1) 1) a c =
      if a = rows grid - 1 ∧ c = cols grid - 1 then 1
      else if a = 0 ∧ c = 0 then 1 else cell g1 a c := by
  have hr2 := rect_setCell hr1 0 0 1
  have hinc : InGrid (setCell g1 0 0 1) (rows grid - 1, cols grid - 1) := by
    have := inGrid_corner hr2
    rw [rows_setCell, cols_setCell, hrows, hcols] at this
    exact this
  rw [cell_setCell hr2 hinc, cell_setCell hr1 (inGrid_zero hr1)]

/-- The check returns on fuel `rows + cols`: its answer is the negation of
the second probe, run on the grid with the corners restored. -/
theorem isPossibleToCutPath_spec (fuel : Nat) (grid : Grid) (hr : Rect grid)
    (hf : rows grid + cols grid ≤ fuel) :
    ∃ b1 g1 b2 g3, ProbePost grid 0 0 b1 g1 ∧
      ProbePost (setCell (setCell g1 0 0 1) (rows grid - 1) (cols grid - 1) 1) 0 0 b2 g3 ∧
      isPossibleToCutPath fuel grid = some (!b2) := by
  obtain ⟨hm, hn, _⟩ := id hr
  obtain ⟨b1, g1, e1, p1⟩ := dfs_spec fuel 0 0 grid hr (by omega) (by intro _; omega)
  have hr3 : Rect (setCell (setCell g1 0 0 1) (rows grid - 1) (cols grid - 1) 1) :=
    rect_setCell (rect_setCell p1.rect _ _ _) _ _ _
  obtain ⟨b2, g3, e2, p2⟩ := dfs_spec fuel 0 0 _ hr3 (by omega) (by
    intro _
    rw [rows_setCell, cols_setCell, rows_setCell, cols_setCell, p1.rows_eq, p1.cols_eq]
    omega)
  refine ⟨b1, g1, b2, g3, p1, p2, ?_⟩
  unfold isPossibleToCutPath
  simp only [e1, e2]

/-- When the second probe succeeds, a walk from the source to the corner is
left whichever inner cell is set to WATER. -/
theorem reach_of_second_probe {grid g1 : Grid} {b1 : Bool} (hr : Rect grid)
    (hs : cell grid 0 0 = 1) (hd : cell grid (rows grid - 1) (cols grid - 1) = 1)
    (p1 : ProbePost grid 0 0 b1 g1)
    (h2 : ToCorner (setCell (setCell g1 0 0 1) (rows grid - 1) (cols grid - 1) 1) 0 0)
    {x y : Int} (hin : InGrid grid (x, y)) (hx0 : ¬ (x = 0 ∧ y = 0))
    (hx1 : ¬ (x = rows grid - 1 ∧ y = cols grid - 1)) :
    Reach (setCell grid x y 0) 0 0 (rows grid - 1) (cols grid - 1) := by
  have hcell := cell_restore p1.rect p1.rows_eq p1.cols_eq
  have hle : ∀ a c,
      cell (setCell (setCell g1 0 0 1) (rows grid - 1) (cols grid - 1) 1) a c = 1 →
        cell grid a c = 1 := by
    intro a c hac
    rw [hcell] at hac
    split at hac
    · rename_i h; obtain ⟨rfl, rfl⟩ := h; exact hd
    · split at hac
      · rename_i h; obtain ⟨rfl, rfl⟩ := h; exact hs
      · exact p1.frame.land hac
  unfold ToCorner at h2
  rw [rows_setCell, cols_setCell, rows_setCell, cols_setCell, p1.rows_eq, p1.cols_eq] at h2
  have hb1 : b1 = true := p1.ret.2 (h2.weaken hle)
  have hcut : ToCorner (setCell grid x y 0) 0 0 := by
    unfold ToCorner
    rw [rows_setCell, cols_setCell]
    by_cases hcl : cell (setCell (setCell g1 0 0 1) (rows grid - 1) (cols grid - 1) 1) x y = 1
    · have hc1 : cell g1 x y = 1 := by
        rw [hcell, if_neg hx1, if_neg hx0] at hcl
        exact hcl
      refine (p1.cleared hb1).weaken (fun a c h => ?_)
      rw [cell_setCell hr hin, if_neg]
      · exact h.1
      · rintro ⟨rfl, rfl⟩
        omega
    · refine h2.weaken (fun a c h => ?_)
      rw [cell_setCell hr hin, if_neg]
      · exact hle a c h
      · rintro ⟨rfl, rfl⟩
        exact hcl h
  have := reach_of_toCorner hcut (by
    rw [rows_setCell, cols_setCell, cell_setCell hr hin, if_neg (by omega)]
    exact hd)
  rw [rows_setCell, cols_setCell] at this
  exact this

/-- When the second probe fails, some inner cell lies on every walk from the
source to the corner; the grid has a walk or at least two cells. -/
theorem cut_of_second_probe {grid g1 : Grid} {b1 : Bool} (hr : Rect grid)
    (hcells : ToCorner grid 0 0 ∨ 2 ≤ rows grid * cols grid) (hs : cell grid 0 0 = 1)
    (p1 : ProbePost grid 0 0 b1 g1)
    (h2 : ¬ ToCorner (setCell (setCell g1 0 0 1) (rows grid - 1) (cols grid - 1) 1) 0 0) :
    ∃ x y, InGrid grid (x, y) ∧ ¬ (x = 0 ∧ y = 0) ∧
      ¬ (x = rows grid - 1 ∧ y = cols grid - 1) ∧
      ¬ Reach (setCell grid x y 0) 0 0 (rows grid - 1) (cols grid - 1) := by
  have hcell := cell_restore p1.rect p1.rows_eq p1.cols_eq
  obtain ⟨hm, hn, _⟩ := id hr
  by_cases hg : ToCorner grid 0 0
  · by_contra hno
    apply h2
    have main : ∀ k : Nat, ∀ x y, High grid (0, 0) (x, y) → ToCorner grid x y →
        rows grid + cols grid - 2 - (x + y) ≤ k →
        CornerPath (rows grid) (cols grid)
          (fun a c =>
            cell (setCell (setCell g1 0 0 1) (rows grid - 1) (cols grid - 1) 1) a c = 1) x y := by
      intro k
      induction k with
      | zero =>
        intro x y _ hcor hk
        have := CornerPath.bounds hcor
        have hx : x = rows grid - 1 := by omega
        have hy : y = cols grid - 1 := by omega
        subst hx hy
        exact CornerPath.corner
      | succ k ih =>
        intro x y hhigh hcor hk
        by_cases hnc : x = rows grid - 1 ∧ y = cols grid - 1
        · obtain ⟨rfl, rfl⟩ := hnc
          exact CornerPath.corner
        obtain ⟨t, hstep, hdiag⟩ := exists_highStep hcor hnc
        have hnext := ih t.1 t.2 (Relation.ReflTransGen.tail hhigh hstep) hstep.2.1 (by omega)
        have hl : cell grid x y = 1 := hstep.1
        have hland :
            cell (setCell (setCell g1 0 0 1) (rows grid - 1) (cols grid - 1) 1) x y = 1 := by
          rw [hcell, if_neg hnc]
          split
          · rfl
          · rename_i h0
            by_contra hne
            rcases p1.changed x y (by rw [hl]; exact hne) with hdead | hlow
            · exact hdead hcor
            · exact hno ⟨x, y, inGrid_of_land hr hl, h0, hnc,
                no_reach_of_low_high hr (inGrid_of_land hr hl) hlow hhigh⟩
        rcases hstep.2.2 with ht | ⟨ht, _⟩
        · rw [ht] at hnext
          exact CornerPath.right hland hnext
        · rw [ht] at hnext
          exact CornerPath.down hland hnext
    have := main (rows grid + cols grid).toNat 0 0 Relation.ReflTransGen.refl hg (by omega)
    unfold ToCorner
    rw [rows_setCell, cols_setCell, rows_setCell, cols_setCell, p1.rows_eq, p1.cols_eq]
    exact this
  · have hcells := hcells.resolve_left hg
    have hnone : ∀ x y, InGrid grid (x, y) →
        ¬ Reach (setCell grid x y 0) 0 0 (rows grid - 1) (cols grid - 1) := by
      intro x y hin hreach
      apply hg
      refine toCorner_of_reach (hreach.mono_land (fun a c hac => ?_))
      rw [cell_setCell hr hin] at hac
      split at hac
      · omega
      · exact hac
    by_cases hn2 : 2 ≤ cols grid
    · by_cases h12 : rows grid = 1 ∧ cols grid = 2
      · exfalso
        apply hg
        have hc : ToCorner grid (rows grid - 1) (cols grid - 1) := CornerPath.corner
        rw [h12.1, h12.2] at hc
        exact CornerPath.right hs (by simpa using hc)
      · have hin : InGrid grid (0, 1) := by unfold InGrid; simp only; omega
        exact ⟨0, 1, hin, by omega, by omega, hnone 0 1 hin⟩
    · have hc1 : cols grid = 1 := by omega
      rw [hc1] at hcells
      by_cases h21 : rows grid = 2
      · exfalso
        apply hg
        have hc : ToCorner grid (rows grid - 1) (cols grid - 1) := CornerPath.corner
        rw [h21, hc1] at hc
        exact CornerPath.down hs (by simpa using hc)
      · have hin : InGrid grid (1, 0) := by unfold InGrid; simp only; omega
        exact ⟨1, 0, hin, by omega, by omega, hnone 1 0 hin⟩

/-! ## Paths as sequences of cells -/

theorem IsPath.single (a : Cell) : IsPath [a] a a :=
  ⟨rfl, rfl, List.chain'_singleton a⟩

theorem IsPath.cons {p : List Cell} {a b c : Cell} (hs : Step a b) (h : IsPath p b c) :
    IsPath (a :: p) a c := by
  obtain ⟨hh, hl, hc⟩ := h
  cases p with
  | nil => simp at hh
  | cons b' l =>
    simp only [List.head?_cons, Option.some.injEq] at hh
    subst hh
    exact ⟨rfl, by rw [List.getLast?_cons_cons]; exact hl, List.chain'_cons.2 ⟨hs, hc⟩⟩

theorem IsPath.of_singleton {a x c : Cell} (h : IsPath [a] x c) : x = a ∧ c = a := by
  obtain ⟨hh, hl, _⟩ := h
  simp only [List.head?_cons, Option.some.injEq] at hh
  simp only [List.getLast?_singleton, Option.some.injEq] at hl
  exact ⟨hh.symm, hl.symm⟩

theorem IsPath.of_cons_cons {a b x c : Cell} {l : List Cell} (h : IsPath (a :: b :: l) x c) :
    x = a ∧ Step a b ∧ IsPath (b :: l) b c := by
  obtain ⟨hh, hl, hc⟩ := h
  simp only [List.head?_cons, Option.some.injEq] at hh
  rw [List.getLast?_cons_cons] at hl
  rw [List.chain'_cons] at hc
  exact ⟨hh.symm, hc.1, rfl, hl, hc.2⟩

theorem IsPath.ne_nil {p : List Cell} {a b : Cell} (h : IsPath p a b) : p ≠ [] := by
  rintro rfl
  simp [IsPath] at h

/-- The inductive and the sequence form of a path to the corner agree. -/
theorem cornerPath_iff_exists_path {m n : Int} {ok : Int → Int → Prop} {i j : Int} :
    CornerPath m n ok i j ↔
      ∃ p : List Cell, IsPath p (i, j) (m - 1, n - 1) ∧
        ∀ c ∈ p, c ≠ (m - 1, n - 1) → ok c.1 c.2 := by
  constructor
  · intro h
    induction h with
    | corner =>
      refine ⟨[(m - 1, n - 1)], IsPath.single _, ?_⟩
      intro c hc hne
      simp only [List.mem_singleton] at hc
      exact absurd hc hne
    | @down i j hij _ ih =>
      obtain ⟨p, hp, hall⟩ := ih
      refine ⟨(i, j) :: p, IsPath.cons (Or.inl rfl) hp, ?_⟩
      intro c hc hne
      rcases List.mem_cons.1 hc with rfl | hc
      · exact hij
      · exact hall c hc hne
    | @right i j hij _ ih =>
      obtain ⟨p, hp, hall⟩ := ih
      refine ⟨(i, j) :: p, IsPath.cons (Or.inr rfl) hp, ?_⟩
      intro c hc hne
      rcases List.mem_cons.1 hc with rfl | hc
      · exact hij
      · exact hall c hc hne
  · rintro ⟨p, hp, hall⟩
    induction p generalizing i j with
    | nil => exact absurd rfl hp.ne_nil
    | cons a l ih =>
      cases l with
      | nil =>
        obtain ⟨h1, h2⟩ := hp.of_singleton
        rw [← h1] at h2
        have hi : m - 1 = i := congrArg Prod.fst h2
        have hj : n - 1 = j := congrArg Prod.snd h2
        subst hi hj
        exact CornerPath.corner
      | cons b l =>
        obtain ⟨h1, hs, hrest⟩ := hp.of_cons_cons
        subst h1
        by_cases hc : i = m - 1 ∧ j = n - 1
        · obtain ⟨rfl, rfl⟩ := hc
          exact CornerPath.corner
        have hok : ok i j := hall (i, j) (List.mem_cons_self _ _) (by
          intro h
          exact hc ⟨congrArg Prod.fst h, congrArg Prod.snd h⟩)
        have hall' : ∀ c ∈ b :: l, c ≠ (m - 1, n - 1) → ok c.1 c.2 :=
          fun c hc => hall c (List.mem_cons_of_mem _ hc)
        rcases hs with rfl | rfl
        · exact CornerPath.down hok (ih hrest hall')
        · exact CornerPath.right hok (ih hrest hall')

/-- The inductive and the sequence form of a walk through LAND agree. -/
theorem reach_iff_connected {grid : Grid} {i j a b : Int} :
    Reach grid i j a b ↔ Connected grid (i, j) (a, b) := by
  constructor
  · intro h
    induction h with
    | @refl i j h =>
      refine ⟨[(i, j)], IsPath.single _, ?_⟩
      intro c hc
      simp only [List.mem_singleton] at hc
      subst hc
      exact h
    | @down i j a b h _ ih =>
      obtain ⟨p, hp, hall⟩ := ih
      refine ⟨(i, j) :: p, IsPath.cons (Or.inl rfl) hp, ?_⟩
      intro c hc
      rcases List.mem_cons.1 hc with rfl | hc
      · exact h
      · exact hall c hc
    | @right i j a b h _ ih =>
      obtain ⟨p, hp, hall⟩ := ih
      refine ⟨(i, j) :: p, IsPath.cons (Or.inr rfl) hp, ?_⟩
      intro c hc
      rcases List.mem_cons.1 hc with rfl | hc
      · exact h
      · exact hall c hc
  · rintro ⟨p, hp, hall⟩
    induction p generalizing i j with
    | nil => exact absurd rfl hp.ne_nil
    | cons x l ih =>
      cases l with
      | nil =>
        obtain ⟨h1, h2⟩ := hp.of_singleton
        rw [← h1] at h2
        have hi : a = i := congrArg Prod.fst h2
        have hj : b = j := congrArg Prod.snd h2
        subst hi hj
        exact Reach.refl (hall (a, b) (by rw [h1]; exact List.mem_cons_self _ _))
      | cons y l =>
        obtain ⟨h1, hs, hrest⟩ := hp.of_cons_cons
        subst h1
        have hl : cell grid i j = 1 := hall (i, j) (List.mem_cons_self _ _)
        have hall' : ∀ c ∈ y :: l, cell grid c.1 c.2 = 1 :=
          fun c hc => hall c (List.mem_cons_of_mem _ hc)
        rcases hs with rfl | rfl
        · exact Reach.down hl (ih hrest hall')
        · exact Reach.right hl (ih hrest hall')

/-- The probe's notion of reaching the corner, as a sequence of cells. -/
theorem toCorner_iff_probePath {grid : Grid} {i j : Int} :
    ToCorner grid i j ↔ ∃ p, ProbePath grid p (i, j) :=
  cornerPath_iff_exists_path

/-! ## The check: `isPossibleToCutPath` -/

/-- C1: on a rectangular grid with at least two cells whose top-left and
bottom-right cells are LAND, `isPossibleToCutPath` returns, and it returns
`true` exactly when some cell other than those two corners is such that, with
that cell set to WATER, no down/right path of LAND cells leads from the
top-left cell to the bottom-right cell. -/
theorem isPossibleToCutPath_iff_cut (grid : Grid) (fuel : Nat) (hr : Rect grid)
    (hcells : 2 ≤ rows grid * cols grid) (hs : cell grid 0 0 = 1)
    (hd : cell grid (rows grid - 1) (cols grid - 1) = 1)
    (hf : rows grid + cols grid ≤ fuel) :
    ∃ b, isPossibleToCutPath fuel grid = some b ∧
      (b = true ↔ ∃ c : Cell, InGrid grid c ∧ c ≠ (0, 0) ∧ c ≠ corner grid ∧
        ¬ Connected (setCell grid c.1 c.2 0) (0, 0) (corner grid)) := by
  obtain ⟨b1, g1, b2, g3, p1, p2, e⟩ := isPossibleToCutPath_spec fuel grid hr hf
  refine ⟨!b2, e, ?_⟩
  constructor
  · intro hb
    have hb2 : b2 = false := by
      cases b2 with
      | false => rfl
      | true => cases hb
    have h2 : ¬ ToCorner (setCell (setCell g1 0 0 1) (rows grid - 1) (cols grid - 1) 1) 0 0 := by
      intro h
      have := p2.ret.2 h
      rw [hb2] at this
      cases this
    obtain ⟨x, y, hin, h0, h1, hno⟩ := cut_of_second_probe hr (Or.inr hcells) hs p1 h2
    refine ⟨(x, y), hin, ?_, ?_, fun hc => hno (reach_iff_connected.2 hc)⟩
    · intro h
      exact h0 ⟨congrArg Prod.fst h, congrArg Prod.snd h⟩
    · intro h
      exact h1 ⟨congrArg Prod.fst h, congrArg Prod.snd h⟩
  · rintro ⟨⟨x, y⟩, hin, h0, h1, hno⟩
    cases hb2 : b2 with
    | false => rfl
    | true =>
      exfalso
      apply hno
      apply reach_iff_connected.1
      refine reach_of_second_probe hr hs hd p1 (p2.ret.1 hb2) hin ?_ ?_
      · rintro ⟨rfl, rfl⟩
        exact h0 rfl
      · rintro ⟨rfl, rfl⟩
        exact h1 rfl

theorem rect_example_a : Rect [[1, 1], [0, 1]] := by
  unfold Rect rows cols
  decide

/-- C1 at the grid `[[1,1],[0,1]]` with fuel 4. -/
theorem isPossibleToCutPath_iff_cut_witness :
    ∃ b, isPossibleToCutPath 4 [[1, 1], [0, 1]] = some b ∧
      (b = true ↔ ∃ c : Cell, InGrid [[1, 1], [0, 1]] c ∧ c ≠ (0, 0) ∧
        c ≠ corner [[1, 1], [0, 1]] ∧
        ¬ Connected (setCell [[1, 1], [0, 1]] c.1 c.2 0) (0, 0) (corner [[1, 1], [0, 1]])) :=
  isPossibleToCutPath_iff_cut [[1, 1], [0, 1]] 4 rect_example_a (by decide) (by decide)
    (by decide) (by decide)

theorem IsPath.head_mem {p : List Cell} {a b : Cell} (h : IsPath p a b) : a ∈ p :=
  List.mem_of_mem_head? h.1

theorem IsPath.last_mem {p : List Cell} {a b : Cell} (h : IsPath p a b) : b ∈ p :=
  List.mem_of_mem_getLast? h.2.1

/-- A path of LAND cells stays one when a cell off the path is set to WATER. -/
theorem landPath_setCell {grid : Grid} (hr : Rect grid) {p : List Cell} {a b : Cell}
    (h : LandPath grid p a b) {x y : Int} (hin : InGrid grid (x, y)) (hoff : (x, y) ∉ p) :
    LandPath (setCell grid x y 0) p a b := by
  refine ⟨h.1, fun c hc => ?_⟩
  rw [cell_setCell hr hin, if_neg]
  · exact h.2 c hc
  · rintro ⟨h1, h2⟩
    apply hoff
    have : c = (x, y) := Prod.ext h1 h2
    rw [← this]
    exact hc

/-- C2: on a rectangular grid in which two distinct down/right paths of LAND
cells lead from the top-left cell to the bottom-right cell and share no cell
other than those two ends, `isPossibleToCutPath` returns `false`. -/
theorem isPossibleToCutPath_false_of_two_paths (grid : Grid) (fuel : Nat) (hr : Rect grid)
    (p q : List Cell) (hp : LandPath grid p (0, 0) (corner grid))
    (hq : LandPath grid q (0, 0) (corner grid)) (_hpq : p ≠ q)
    (hshare : ∀ c, c ∈ p → c ∈ q → c = (0, 0) ∨ c = corner grid)
    (hf : rows grid + cols grid ≤ fuel) :
    isPossibleToCutPath fuel grid = some false := by
  have hs : cell grid 0 0 = 1 := hp.2 (0, 0) hp.1.head_mem
  have hg : ToCorner grid 0 0 := toCorner_of_reach (reach_iff_connected.2 ⟨p, hp⟩)
  obtain ⟨b1, g1, b2, g3, p1, p2, e⟩ := isPossibleToCutPath_spec fuel grid hr hf
  rw [e]
  cases hb2 : b2 with
  | true => rfl
  | false =>
    exfalso
    have h2 : ¬ ToCorner (setCell (setCell g1 0 0 1) (rows grid - 1) (cols grid - 1) 1) 0 0 := by
      intro h
      have := p2.ret.2 h
      rw [hb2] at this
      cases this
    obtain ⟨x, y, hin, h0, h1, hno⟩ := cut_of_second_probe hr (Or.inl hg) hs p1 h2
    apply hno
    apply reach_iff_connected.2
    by_cases hxp : (x, y) ∈ p
    · have hxq : (x, y) ∉ q := by
        intro hxq
        rcases hshare (x, y) hxp hxq with h | h
        · exact h0 ⟨congrArg Prod.fst h, congrArg Prod.snd h⟩
        · exact h1 ⟨congrArg Prod.fst h, congrArg Prod.snd h⟩
      exact ⟨q, landPath_setCell hr hq hin hxq⟩
    · exact ⟨p, landPath_setCell hr hp hin hxp⟩

theorem rect_example_b : Rect [[1, 1, 1], [1, 1, 1], [1, 1, 1]] := by
  unfold Rect rows cols
  decide

/-- C2 at the 3x3 grid of LAND cells, with the path along the left and bottom
edges and the path along the top and right edges. -/
theorem isPossibleToCutPath_false_of_two_paths_witness :
    isPossibleToCutPath 6 [[1, 1, 1], [1, 1, 1], [1, 1, 1]] = some false :=
  isPossibleToCutPath_false_of_two_paths [[1, 1, 1], [1, 1, 1], [1, 1, 1]] 6 rect_example_b
    [(0, 0), (1, 0), (2, 0), (2, 1), (2, 2)] [(0, 0), (0, 1), (0, 2), (1, 2), (2, 2)]
    (by simp [LandPath, IsPath, Step, corner, rows, cols, cell])
    (by simp [LandPath, IsPath, Step, corner, rows, cols, cell])
    (by decide)
    (by unfold corner rows cols; decide)
    (by decide)

/-- The first move of a walk that is not empty. -/
theorem Reach.first {grid : Grid} {i j a b : Int} (h : Reach grid i j a b)
    (hne : ¬ (i = a ∧ j = b)) : Reach grid (i + 1) j a b ∨ Reach grid i (j + 1) a b := by
  cases h with
  | refl _ => exact absurd ⟨rfl, rfl⟩ hne
  | down _ h => exact Or.inl h
  | right _ h => exact Or.inr h

/-- A walk seen by the second probe is a walk of the grid as given. -/
theorem toCorner_of_second_probe {grid g1 : Grid} {b1 : Bool}
    (hs : cell grid 0 0 = 1) (hd : cell grid (rows grid - 1) (cols grid - 1) = 1)
    (p1 : ProbePost grid 0 0 b1 g1)
    (h2 : ToCorner (setCell (setCell g1 0 0 1) (rows grid - 1) (cols grid - 1) 1) 0 0) :
    ToCorner grid 0 0 := by
  have hcell := cell_restore p1.rect p1.rows_eq p1.cols_eq
  unfold ToCorner at h2
  rw [rows_setCell, cols_setCell, rows_setCell, cols_setCell, p1.rows_eq, p1.cols_eq] at h2
  refine h2.weaken (fun a c hac => ?_)
  rw [hcell] at hac
  split at hac
  · rename_i h; obtain ⟨rfl, rfl⟩ := h; exact hd
  · split at hac
    · rename_i h; obtain ⟨rfl, rfl⟩ := h; exact hs
    · exact p1.frame.land hac

theorem rect_example_c : Rect [[1, 1]] := by
  unfold Rect rows cols
  decide

theorem unique_path_example :
    ∃! p, LandPath [[1, 1]] p (0, 0) (corner [[1, 1]]) := by
  have hcorner : corner [[1, 1]] = (0, 1) := by
    unfold corner rows cols
    decide
  rw [hcorner]
  refine ⟨[(0, 0), (0, 1)], by simp [LandPath, IsPath, Step, cell], ?_⟩
  rintro q ⟨hpath, hall⟩
  rcases q with _ | ⟨a, _ | ⟨b, _ | ⟨c, l⟩⟩⟩
  · exact absurd rfl hpath.ne_nil
  · obtain ⟨h1, h2⟩ := hpath.of_singleton
    rw [← h1] at h2
    simp at h2
  · obtain ⟨h1, _, hrest⟩ := hpath.of_cons_cons
    obtain ⟨_, h3⟩ := hrest.of_singleton
    rw [← h1, ← h3]
  · obtain ⟨h1, hs, hrest⟩ := hpath.of_cons_cons
    obtain ⟨_, hs2, _⟩ := hrest.of_cons_cons
    have hb := hall b (by simp)
    have hc := hall c (by simp)
    subst h1
    rcases hs with rfl | rfl
    · simp [cell] at hb
    · rcases hs2 with rfl | rfl
      · simp [cell] at hc
      · simp [cell] at hc

/-- C3, as stated, fails on the two-cell grid `[[1,1]]`: exactly one path of
LAND cells leads from the top-left to the bottom-right cell, and
`isPossibleToCutPath` returns `false`. -/
theorem isPossibleToCutPath_unique_path_counterexample :
    Rect [[1, 1]] ∧ (∃! p, LandPath [[1, 1]] p (0, 0) (corner [[1, 1]])) ∧
      isPossibleToCutPath 3 [[1, 1]] = some false :=
  ⟨rect_example_c, unique_path_example, by decide⟩

/-- C3, amended: on a rectangular grid with at least three cells in which
exactly one down/right path of LAND cells leads from the top-left cell to the
bottom-right cell, `isPossibleToCutPath` returns `true`. -/
theorem isPossibleToCutPath_true_of_unique_path (grid : Grid) (fuel : Nat) (hr : Rect grid)
    (hcells : 3 ≤ rows grid * cols grid)
    (huniq : ∃! p, LandPath grid p (0, 0) (corner grid))
    (hf : rows grid + cols grid ≤ fuel) :
    isPossibleToCutPath fuel grid = some true := by
  obtain ⟨P, hP, huni⟩ := huniq
  have hs : cell grid 0 0 = 1 := hP.2 (0, 0) hP.1.head_mem
  have hd : cell grid (rows grid - 1) (cols grid - 1) = 1 := hP.2 (corner grid) hP.1.last_mem
  -- the second cell of the path is neither corner
  have hinner : ∃ x y, (x, y) ∈ P ∧ ¬ (x = 0 ∧ y = 0) ∧
      ¬ (x = rows grid - 1 ∧ y = cols grid - 1) := by
    rcases P with _ | ⟨a, _ | ⟨b, l⟩⟩
    · exact absurd rfl hP.1.ne_nil
    · obtain ⟨h1, h2⟩ := hP.1.of_singleton
      rw [← h1] at h2
      have e1 : rows grid - 1 = 0 := congrArg Prod.fst h2
      have e2 : cols grid - 1 = 0 := congrArg Prod.snd h2
      have e3 : rows grid = 1 := by omega
      have e4 : cols grid = 1 := by omega
      rw [e3, e4] at hcells
      omega
    · obtain ⟨h1, hstep, _⟩ := hP.1.of_cons_cons
      subst h1
      refine ⟨b.1, b.2, by simp, ?_, ?_⟩
      · rcases hstep with rfl | rfl <;> simp
      · rintro ⟨e1, e2⟩
        rcases hstep with rfl | rfl
        · simp only at e1 e2
          have e3 : rows grid = 2 := by omega
          have e4 : cols grid = 1 := by omega
          rw [e3, e4] at hcells
          omega
        · simp only at e1 e2
          have e3 : rows grid = 1 := by omega
          have e4 : cols grid = 2 := by omega
          rw [e3, e4] at hcells
          omega
  obtain ⟨x, y, hmem, h0, h1⟩ := hinner
  have hin : InGrid grid (x, y) := inGrid_of_land hr (hP.2 (x, y) hmem)
  have hcut : ¬ Connected (setCell grid x y 0) (0, 0) (corner grid) := by
    rintro ⟨q, hq⟩
    have hq' : LandPath grid q (0, 0) (corner grid) := by
      refine ⟨hq.1, fun c hc => ?_⟩
      have := hq.2 c hc
      rw [cell_setCell hr hin] at this
      split at this
      · omega
      · exact this
    have hqP : q = P := huni q hq'
    have := hq.2 (x, y) (by rw [hqP]; exact hmem)
    rw [cell_setCell hr hin] at this
    simp at this
  obtain ⟨b1, g1, b2, g3, p1, p2, e⟩ := isPossibleToCutPath_spec fuel grid hr hf
  rw [e]
  cases hb2 : b2 with
  | false => rfl
  | true =>
    exfalso
    apply hcut
    exact reach_iff_connected.1 (reach_of_second_probe hr hs hd p1 (p2.ret.1 hb2) hin h0 h1)

theorem rect_example_d : Rect [[1, 1, 1]] := by
  unfold Rect rows cols
  decide

theorem unique_path_example_d :
    ∃! p, LandPath [[1, 1, 1]] p (0, 0) (corner [[1, 1, 1]]) := by
  have hcorner : corner [[1, 1, 1]] = (0, 2) := by
    unfold corner rows cols
    decide
  rw [hcorner]
  refine ⟨[(0, 0), (0, 1), (0, 2)], by simp [LandPath, IsPath, Step, cell], ?_⟩
  rintro q ⟨hpath, hall⟩
  rcases q with _ | ⟨a, _ | ⟨b, _ | ⟨c, _ | ⟨d, l⟩⟩⟩⟩
  · exact absurd rfl hpath.ne_nil
  · obtain ⟨h1, h2⟩ := hpath.of_singleton
    rw [← h1] at h2
    simp at h2
  · obtain ⟨h1, hs, hrest⟩ := hpath.of_cons_cons
    obtain ⟨_, h3⟩ := hrest.of_singleton
    subst h1
    rw [← h3] at hs
    rcases hs with h | h <;> simp at h
  · obtain ⟨h1, hs, hrest⟩ := hpath.of_cons_cons
    obtain ⟨_, hs2, hrest2⟩ := hrest.of_cons_cons
    obtain ⟨_, h3⟩ := hrest2.of_singleton
    have hb := hall b (by simp)
    subst h1
    rw [← h3]
    rcases hs with rfl | rfl
    · simp [cell] at hb
    · simp
  · obtain ⟨h1, hs, hrest⟩ := hpath.of_cons_cons
    obtain ⟨_, hs2, hrest2⟩ := hrest.of_cons_cons
    obtain ⟨_, hs3, _⟩ := hrest2.of_cons_cons
    have hb := hall b (by simp)
    have hc := hall c (by simp)
    have hd := hall d (by simp)
    subst h1
    rcases hs with rfl | rfl
    · simp [cell] at hb
    · rcases hs2 with rfl | rfl
      · simp [cell] at hc
      · rcases hs3 with rfl | rfl
        · simp [cell] at hd
        · simp [cell] at hd

/-- C3, amended, at the grid `[[1,1,1]]` with fuel 4. -/
theorem isPossibleToCutPath_true_of_unique_path_witness :
    isPossibleToCutPath 4 [[1, 1, 1]] = some true :=
  isPossibleToCutPath_true_of_unique_path [[1, 1, 1]] 4 rect_example_d (by decide)
    unique_path_example_d (by decide)

/-- C4: on a rectangular grid whose top-left and bottom-right cells are LAND
but in which no down/right path of LAND cells leads from the top-left cell to
the bottom-right cell, `isPossibleToCutPath` returns `true`. -/
theorem isPossibleToCutPath_true_of_no_path (grid : Grid) (fuel : Nat) (hr : Rect grid)
    (hs : cell grid 0 0 = 1) (hd : cell grid (rows grid - 1) (cols grid - 1) = 1)
    (hno : ¬ Connected grid (0, 0) (corner grid))
    (hf : rows grid + cols grid ≤ fuel) :
    isPossibleToCutPath fuel grid = some true := by
  obtain ⟨b1, g1, b2, g3, p1, p2, e⟩ := isPossibleToCutPath_spec fuel grid hr hf
  rw [e]
  cases hb2 : b2 with
  | false => rfl
  | true =>
    exfalso
    apply hno
    apply reach_iff_connected.1
    exact reach_of_toCorner (toCorner_of_second_probe hs hd p1 (p2.ret.1 hb2)) hd

theorem rect_example_e : Rect [[1, 0], [0, 1]] := by
  unfold Rect rows cols
  decide

theorem no_path_example : ¬ Connected [[1, 0], [0, 1]] (0, 0) (corner [[1, 0], [0, 1]]) := by
  have hcorner : corner [[1, 0], [0, 1]] = (1, 1) := by
    unfold corner rows cols
    decide
  rw [hcorner]
  intro h
  rcases (reach_iff_connected.2 h).first (by decide) with h1 | h1
  · have := h1.land_left
    simp [cell] at this
  · have := h1.land_left
    simp [cell] at this

/-- C4 at the grid `[[1,0],[0,1]]` with fuel 4. -/
theorem isPossibleToCutPath_true_of_no_path_witness :
    isPossibleToCutPath 4 [[1, 0], [0, 1]] = some true :=
  isPossibleToCutPath_true_of_no_path [[1, 0], [0, 1]] 4 rect_example_e (by decide)
    (by decide) no_path_example (by decide)

/-- C5, as stated, fails: on the single-cell grid `[[1]]` the check does not
return `true`; with fuel 2 it returns `false`. -/
theorem isPossibleToCutPath_single_cell_counterexample :
    isPossibleToCutPath 2 [[1]] = some false ∧ isPossibleToCutPath 2 [[1]] ≠ some true :=
  ⟨by decide, by decide⟩

/-- C5, amended: on the single-cell grid `[[1]]`, `isPossibleToCutPath`
returns `false`, on any fuel that allows one call. -/
theorem isPossibleToCutPath_single_cell (fuel : Nat) :
    isPossibleToCutPath (fuel + 1) [[1]] = some false := by
  have h1 : dfs (fuel + 1) 0 0 [[1]] = some (true, [[1]]) := dfs_corner fuel [[1]]
  have h2 : setCell (setCell [[1]] 0 0 1) (rows [[1]] - 1) (cols [[1]] - 1) 1 = [[1]] := by
    decide
  unfold isPossibleToCutPath
  simp only [h1, h2]
  rfl

/-! ## The probe: `dfs` -/

/-- C6: on a rectangular grid with at least one row and one column, the probe
from an origin `(i, j)` inside the grid returns, and it returns `true` exactly
when some sequence of cells leads from `(i, j)` to the bottom-right corner,
each move one row down or one column right, every cell of it other than the
corner being LAND in the grid as given. -/
theorem dfs_true_iff_probePath (grid : Grid) (fuel : Nat) (i j : Int) (hr : Rect grid)
    (hin : InGrid grid (i, j)) (hf : rows grid + cols grid ≤ fuel) :
    ∃ b grid', dfs fuel i j grid = some (b, grid') ∧
      (b = true ↔ ∃ p, ProbePath grid p (i, j)) := by
  obtain ⟨hi0, _, hj0, _⟩ := id hin
  simp only at hi0 hj0
  obtain ⟨hm, hn, _⟩ := id hr
  obtain ⟨b, g', e, post⟩ := dfs_spec fuel i j grid hr (by omega) (by intro _; omega)
  exact ⟨b, g', e, post.ret.trans toCorner_iff_probePath⟩

/-- C6 at the grid `[[1,1],[0,1]]`, origin `(0, 0)`, fuel 4. -/
theorem dfs_true_iff_probePath_witness :
    ∃ b grid', dfs 4 0 0 [[1, 1], [0, 1]] = some (b, grid') ∧
      (b = true ↔ ∃ p, ProbePath [[1, 1], [0, 1]] p (0, 0)) :=
  dfs_true_iff_probePath [[1, 1], [0, 1]] 4 0 0 rect_example_a
    (by unfold InGrid rows cols; decide) (by decide)

/-- C7, as stated, fails on the 2x2 grid of LAND cells: the probe from
`(0, 0)` returns `true` after going down the left column, and the cell
`(0, 1)`, LAND and reachable from the origin, is still LAND afterwards. -/
theorem dfs_consumes_all_counterexample :
    dfs 4 0 0 [[1, 1], [1, 1]] = some (true, [[0, 1], [0, 1]]) ∧
      cell [[1, 1], [1, 1]] 0 1 = 1 ∧ Connected [[1, 1], [1, 1]] (0, 0) (0, 1) ∧
      cell [[0, 1], [0, 1]] 0 1 = 1 :=
  ⟨by decide, by decide, ⟨[(0, 0), (0, 1)], by simp [LandPath, IsPath, Step, cell]⟩, by decide⟩

/-- C7, amended: after a probe `dfs(i, j, grid)` that returns `false`, every
cell that was LAND and is reachable from the origin by down/right moves
through LAND cells has been turned into WATER. -/
theorem dfs_false_consumes_reachable (grid : Grid) (fuel : Nat) (i j : Int) (hr : Rect grid)
    (hf : rows grid + cols grid ≤ fuel) :
    ∃ b grid', dfs fuel i j grid = some (b, grid') ∧
      (b = false → ∀ c : Cell, cell grid c.1 c.2 = 1 → Connected grid (i, j) c →
        cell grid' c.1 c.2 = 0) := by
  obtain ⟨hm, hn, _⟩ := id hr
  obtain ⟨b, g', e, post⟩ := dfs_spec fuel i j grid hr (by omega) (by
    rintro ⟨h1, _, h2, _⟩
    simp only at h1 h2
    omega)
  refine ⟨b, g', e, fun hb c _ hc => ?_⟩
  exact post.consumed hb c.1 c.2 (reach_iff_connected.2 hc)

/-- C7, amended, at the grid `[[1,0],[0,1]]`, origin `(0, 0)`, fuel 4. -/
theorem dfs_false_consumes_reachable_witness :
    ∃ b grid', dfs 4 0 0 [[1, 0], [0, 1]] = some (b, grid') ∧
      (b = false → ∀ c : Cell, cell [[1, 0], [0, 1]] c.1 c.2 = 1 →
        Connected [[1, 0], [0, 1]] (0, 0) c → cell grid' c.1 c.2 = 0) :=
  dfs_false_consumes_reachable [[1, 0], [0, 1]] 4 0 0 rect_example_e (by decide)

/-- C8: on a rectangular grid and from any origin, the probe returns and keeps
the size of the grid; each cell either keeps its value or goes from LAND to
WATER, and a cell that changes was LAND and is reachable from the origin by
down/right moves through cells that were LAND in the grid as given. -/
theorem dfs_frame (grid : Grid) (fuel : Nat) (i j : Int) (hr : Rect grid)
    (hf : rows grid + cols grid ≤ fuel) :
    ∃ b grid', dfs fuel i j grid = some (b, grid') ∧
      rows grid' = rows grid ∧ cols grid' = cols grid ∧
      ∀ c : Cell, cell grid' c.1 c.2 = cell grid c.1 c.2 ∨
        (cell grid c.1 c.2 = 1 ∧ cell grid' c.1 c.2 = 0 ∧ Connected grid (i, j) c) := by
  obtain ⟨hm, hn, _⟩ := id hr
  obtain ⟨b, g', e, post⟩ := dfs_spec fuel i j grid hr (by omega) (by
    rintro ⟨h1, _, h2, _⟩
    simp only at h1 h2
    omega)
  refine ⟨b, g', e, post.rows_eq, post.cols_eq, fun c => ?_⟩
  rcases post.frame c.1 c.2 with h | ⟨h1, h2, h3⟩
  · exact Or.inl h
  · exact Or.inr ⟨h1, h2, reach_iff_connected.1 h3⟩

/-- C8 at the 3x3 grid of LAND cells, origin `(0, 0)`, fuel 6. -/
theorem dfs_frame_witness :
    ∃ b grid', dfs 6 0 0 [[1, 1, 1], [1, 1, 1], [1, 1, 1]] = some (b, grid') ∧
      rows grid' = rows [[1, 1, 1], [1, 1, 1], [1, 1, 1]] ∧
      cols grid' = cols [[1, 1, 1], [1, 1, 1], [1, 1, 1]] ∧
      ∀ c : Cell, cell grid' c.1 c.2 = cell [[1, 1, 1], [1, 1, 1], [1, 1, 1]] c.1 c.2 ∨
        (cell [[1, 1, 1], [1, 1, 1], [1, 1, 1]] c.1 c.2 = 1 ∧ cell grid' c.1 c.2 = 0 ∧
          Connected [[1, 1, 1], [1, 1, 1], [1, 1, 1]] (0, 0) c) :=
  dfs_frame [[1, 1, 1], [1, 1, 1], [1, 1, 1]] 6 0 0 rect_example_b (by decide)

theorem cell_of_allWater {grid : Grid} (hw : AllWater grid) (a c : Int) :
    cell grid a c = 0 := by
  unfold cell
  split
  · by_cases h1 : a.toNat < grid.length
    · rw [List.getD_eq_getElem grid [] h1]
      by_cases h2 : c.toNat < (grid[a.toNat]).length
      · rw [List.getD_eq_getElem _ 0 h2]
        exact hw _ (List.getElem_mem h1) _ (List.getElem_mem h2)
      · rw [List.getD_eq_default _ 0 (by omega)]
    · rw [List.getD_eq_default grid [] (by omega)]
      rfl
  · rfl

/-- C9, as stated, fails on the grid `[[0]]`: every cell is WATER, the origin
`(0, 0)` is inside the grid, and the probe returns `true`, because the origin
is the bottom-right corner and the corner is not read. -/
theorem dfs_all_water_counterexample :
    Rect [[0]] ∧ AllWater [[0]] ∧ InGrid [[0]] (0, 0) ∧
      dfs 2 0 0 [[0]] = some (true, [[0]]) :=
  ⟨by unfold Rect rows cols; decide, by unfold AllWater; decide,
    by unfold InGrid rows cols; decide, by decide⟩

/-- C9, amended: on a rectangular grid whose cells are all WATER, the probe
from an origin inside the grid other than the bottom-right corner returns
`false` and leaves the grid as it is, and a second probe from the same origin
on the resulting grid returns `false` again. -/
theorem dfs_all_water_twice (grid : Grid) (fuel : Nat) (i j : Int) (_hr : Rect grid)
    (hw : AllWater grid) (_hin : InGrid grid (i, j)) (hnc : (i, j) ≠ corner grid)
    (hf : 1 ≤ fuel) :
    ∃ g1 g2, dfs fuel i j grid = some (false, g1) ∧ dfs fuel i j g1 = some (false, g2) ∧
      g1 = grid ∧ g2 = grid := by
  have hc : ¬ (i = rows grid - 1 ∧ j = cols grid - 1) := by
    rintro ⟨rfl, rfl⟩
    exact hnc rfl
  have hcell : cell grid i j ≠ 1 := by
    rw [cell_of_allWater hw]
    decide
  cases fuel with
  | zero => omega
  | succ fuel =>
    exact ⟨grid, grid, dfs_water fuel hc hcell, dfs_water fuel hc hcell, rfl, rfl⟩

/-- C9, amended, at the grid `[[0,0],[0,0]]`, origin `(0, 0)`, fuel 1. -/
theorem dfs_all_water_twice_witness :
    ∃ g1 g2, dfs 1 0 0 [[0, 0], [0, 0]] = some (false, g1) ∧
      dfs 1 0 0 g1 = some (false, g2) ∧ g1 = [[0, 0], [0, 0]] ∧ g2 = [[0, 0], [0, 0]] :=
  dfs_all_water_twice [[0, 0], [0, 0]] 1 0 0 (by unfold Rect rows cols; decide)
    (by unfold AllWater; decide) (by unfold InGrid rows cols; decide)
    (by unfold corner rows cols; decide) (by decide)

/-- C10: on a rectangular grid that has a down/right path of LAND cells from
`(0, 0)` to the bottom-right corner, the probe from `(0, 0)` returns, and
afterwards some down/right path leads from `(0, 0)` to the corner every cell of
which, other than the corner, was LAND before the probe and is WATER after
it. -/
theorem dfs_clears_a_path (grid : Grid) (fuel : Nat) (hr : Rect grid)
    (hpath : Connected grid (0, 0) (corner grid))
    (hf : rows grid + cols grid ≤ fuel) :
    ∃ b grid', dfs fuel 0 0 grid = some (b, grid') ∧
      ∃ p, IsPath p (0, 0) (corner grid) ∧
        ∀ c ∈ p, c ≠ corner grid → cell grid c.1 c.2 = 1 ∧ cell grid' c.1 c.2 = 0 := by
  obtain ⟨hm, hn, _⟩ := id hr
  obtain ⟨b, g', e, post⟩ := dfs_spec fuel 0 0 grid hr (by omega) (by intro _; omega)
  have hb : b = true := post.ret.2 (toCorner_of_reach (reach_iff_connected.2 hpath))
  exact ⟨b, g', e, cornerPath_iff_exists_path.1 (post.cleared hb)⟩

/-- C10 at the grid `[[1,1],[0,1]]` with fuel 4. -/
theorem dfs_clears_a_path_witness :
    ∃ b grid', dfs 4 0 0 [[1, 1], [0, 1]] = some (b, grid') ∧
      ∃ p, IsPath p (0, 0) (corner [[1, 1], [0, 1]]) ∧
        ∀ c ∈ p, c ≠ corner [[1, 1], [0, 1]] →
          cell [[1, 1], [0, 1]] c.1 c.2 = 1 ∧ cell grid' c.1 c.2 = 0 :=
  dfs_clears_a_path [[1, 1], [0, 1]] 4 rect_example_a
    ⟨[(0, 0), (0, 1), (1, 1)], by simp [LandPath, IsPath, Step, corner, rows, cols, cell]⟩
    (by decide)

/-- C11: on a rectangular grid with at least one row and one column, the
probe from an origin outside the grid returns `false` and leaves the grid as
it is. -/
theorem dfs_out_of_bounds (grid : Grid) (fuel : Nat) (i j : Int) (hr : Rect grid)
    (hout : i < 0 ∨ i ≥ rows grid ∨ j < 0 ∨ j ≥ cols grid) (hf : 1 ≤ fuel) :
    dfs fuel i j grid = some (false, grid) := by
  obtain ⟨hm, hn, _⟩ := id hr
  cases fuel with
  | zero => omega
  | succ fuel =>
    refine dfs_outside fuel (by omega) ?_
    unfold InGrid
    simp only
    omega

/-- C11 at the grid `[[1,1],[0,1]]`, origin `(-1, 0)`, fuel 1. -/
theorem dfs_out_of_bounds_witness :
    dfs 1 (-1) 0 [[1, 1], [0, 1]] = some (false, [[1, 1], [0, 1]]) :=
  dfs_out_of_bounds [[1, 1], [0, 1]] 1 (-1) 0 rect_example_a (by decide) (by decide)

/-- C12: on a rectangular grid with at least one row and one column, the probe
returns from every integer origin, and so does the check, on fuel
`rows + cols`. -/
theorem dfs_terminates (grid : Grid) (fuel : Nat) (hr : Rect grid)
    (hf : rows grid + cols grid ≤ fuel) :
    (∀ i j : Int, ∃ b grid', dfs fuel i j grid = some (b, grid')) ∧
      ∃ b, isPossibleToCutPath fuel grid = some b := by
  obtain ⟨hm, hn, _⟩ := id hr
  constructor
  · intro i j
    obtain ⟨b, g', e, _⟩ := dfs_spec fuel i j grid hr (by omega) (by
      rintro ⟨h1, _, h2, _⟩
      simp only at h1 h2
      omega)
    exact ⟨b, g', e⟩
  · obtain ⟨_, _, b2, _, _, _, e⟩ := isPossibleToCutPath_spec fuel grid hr hf
    exact ⟨!b2, e⟩

/-- C12 at the 3x3 grid of LAND cells with fuel 6. -/
theorem dfs_terminates_witness :
    (∀ i j : Int, ∃ b grid', dfs 6 i j [[1, 1, 1], [1, 1, 1], [1, 1, 1]] = some (b, grid')) ∧
      ∃ b, isPossibleToCutPath 6 [[1, 1, 1], [1, 1, 1], [1, 1, 1]] = some b :=
  dfs_terminates [[1, 1, 1], [1, 1, 1], [1, 1, 1]] 6 rect_example_b (by decide)

/-- C13: on a rectangular grid and from any origin, the probe returns and the
bottom-right cell has the value it had before. -/
theorem dfs_keeps_corner (grid : Grid) (fuel : Nat) (i j : Int) (hr : Rect grid)
    (hf : rows grid + cols grid ≤ fuel) :
    ∃ b grid', dfs fuel i j grid = some (b, grid') ∧
      cell grid' (rows grid - 1) (cols grid - 1) = cell grid (rows grid - 1) (cols grid - 1) := by
  obtain ⟨hm, hn, _⟩ := id hr
  obtain ⟨b, g', e, post⟩ := dfs_spec fuel i j grid hr (by omega) (by
    rintro ⟨h1, _, h2, _⟩
    simp only at h1 h2
    omega)
  exact ⟨b, g', e, post.corner_kept⟩

/-- C13 at the 3x3 grid of LAND cells, origin `(0, 0)`, fuel 6. -/
theorem dfs_keeps_corner_witness :
    ∃ b grid', dfs 6 0 0 [[1, 1, 1], [1, 1, 1], [1, 1, 1]] = some (b, grid') ∧
      cell grid' (rows [[1, 1, 1], [1, 1, 1], [1, 1, 1]] - 1)
          (cols [[1, 1, 1], [1, 1, 1], [1, 1, 1]] - 1) =
        cell [[1, 1, 1], [1, 1, 1], [1, 1, 1]] (rows [[1, 1, 1], [1, 1, 1], [1, 1, 1]] - 1)
          (cols [[1, 1, 1], [1, 1, 1], [1, 1, 1]] - 1) :=
  dfs_keeps_corner [[1, 1, 1], [1, 1, 1], [1, 1, 1]] 6 0 0 rect_example_b (by decide)

/-- C14, as stated, fails on the grid `[[1,1]]`: the first probe of the check,
`dfs(0, 0, grid)`, turns the LAND source cell `(0, 0)` into WATER. -/
theorem dfs_source_counterexample :
    dfs 3 0 0 [[1, 1]] = some (true, [[0, 1]]) ∧ cell [[1, 1]] 0 0 = 1 ∧
      cell [[0, 1]] 0 0 = 0 :=
  ⟨by decide, by decide, by decide⟩

/-- C14, amended: the first probe `dfs(0, 0, grid)` turns the source cell
`(0, 0)` into WATER when it is LAND and is not also the bottom-right corner;
otherwise it leaves the source cell as it is. -/
theorem dfs_flips_source (grid : Grid) (fuel : Nat) (hr : Rect grid)
    (hf : rows grid + cols grid ≤ fuel) :
    ∃ b grid', dfs fuel 0 0 grid = some (b, grid') ∧
      (cell grid 0 0 = 1 ∧ corner grid ≠ (0, 0) → cell grid' 0 0 = 0) ∧
      (¬ (cell grid 0 0 = 1 ∧ corner grid ≠ (0, 0)) → cell grid' 0 0 = cell grid 0 0) := by
  obtain ⟨hm, hn, _⟩ := id hr
  obtain ⟨b, g', e, post⟩ := dfs_spec fuel 0 0 grid hr (by omega) (by intro _; omega)
  refine ⟨b, g', e, ?_, ?_⟩
  · rintro ⟨hl, hc⟩
    have hnc : ¬ ((0 : Int) = rows grid - 1 ∧ (0 : Int) = cols grid - 1) := by
      rintro ⟨h1, h2⟩
      apply hc
      unfold corner
      rw [← h1, ← h2]
    cases hb : b with
    | false => exact post.consumed hb 0 0 (Reach.refl hl)
    | true => exact ((post.cleared hb).cases_ne hnc).1.2
  · intro h
    by_cases hl : cell grid 0 0 = 1
    · have hc : corner grid = (0, 0) := by
        by_contra hc
        exact h ⟨hl, hc⟩
      have h1 : rows grid - 1 = 0 := congrArg Prod.fst hc
      have h2 : cols grid - 1 = 0 := congrArg Prod.snd hc
      have := post.corner_kept
      rw [h1, h2] at this
      exact this
    · exact post.frame.keep hl

/-- C14, amended, at the grid `[[1,1]]` with fuel 3. -/
theorem dfs_flips_source_witness :
    ∃ b grid', dfs 3 0 0 [[1, 1]] = some (b, grid') ∧
      (cell [[1, 1]] 0 0 = 1 ∧ corner [[1, 1]] ≠ (0, 0) → cell grid' 0 0 = 0) ∧
      (¬ (cell [[1, 1]] 0 0 = 1 ∧ corner [[1, 1]] ≠ (0, 0)) →
        cell grid' 0 0 = cell [[1, 1]] 0 0) :=
  dfs_flips_source [[1, 1]] 3 rect_example_c (by decide)

/-- C17: on a rectangular grid and from an origin inside the grid, a probe
that returns `false` leaves as WATER the origin, if it was LAND, and every
cell that was reachable from the origin by down/right moves through LAND
cells. -/
theorem dfs_false_consumes_region (grid : Grid) (fuel : Nat) (i j : Int) (hr : Rect grid)
    (hin : InGrid grid (i, j)) (hf : rows grid + cols grid ≤ fuel) :
    ∃ b grid', dfs fuel i j grid = some (b, grid') ∧
      (b = false → (cell grid i j = 1 → cell grid' i j = 0) ∧
        ∀ c : Cell, Connected grid (i, j) c → cell grid' c.1 c.2 = 0) := by
  obtain ⟨hi0, _, hj0, _⟩ := id hin
  simp only at hi0 hj0
  obtain ⟨hm, hn, _⟩ := id hr
  obtain ⟨b, g', e, post⟩ := dfs_spec fuel i j grid hr (by omega) (by intro _; omega)
  refine ⟨b, g', e, fun hb => ⟨fun hl => ?_, fun c hc => ?_⟩⟩
  · exact post.consumed hb i j (Reach.refl hl)
  · exact post.consumed hb c.1 c.2 (reach_iff_connected.2 hc)

/-- C17 at the grid `[[1,0],[0,1]]`, origin `(0, 0)`, fuel 4: the probe
returns `false`. -/
theorem dfs_false_consumes_region_witness :
    ∃ b grid', dfs 4 0 0 [[1, 0], [0, 1]] = some (b, grid') ∧
      (b = false → (cell [[1, 0], [0, 1]] 0 0 = 1 → cell grid' 0 0 = 0) ∧
        ∀ c : Cell, Connected [[1, 0], [0, 1]] (0, 0) c → cell grid' c.1 c.2 = 0) :=
  dfs_false_consumes_region [[1, 0], [0, 1]] 4 0 0 rect_example_e
    (by unfold InGrid rows cols; decide) (by decide)

/-! ## The depth of nested calls -/

theorem dfsDepth_leaf (fuel : Nat) {i j : Int} {grid : Grid}
    (h : (i = rows grid - 1 ∧ j = cols grid - 1) ∨ ¬ InGrid grid (i, j) ∨ cell grid i j ≠ 1) :
    ∃ b, dfsDepth (fuel + 1) i j grid = some (1, b, grid) := by
  simp only [dfsDepth]
  by_cases hc : i = rows grid - 1 ∧ j = cols grid - 1
  · exact ⟨true, by rw [if_pos hc]⟩
  · rw [if_neg hc]
    by_cases ho : i < 0 ∨ i ≥ rows grid ∨ j < 0 ∨ j ≥ cols grid
    · exact ⟨false, by rw [if_pos ho]⟩
    · rw [if_neg ho]
      have hl : cell grid i j ≠ 1 := by
        rcases h with h | h | h
        · exact absurd h hc
        · exfalso
          apply h
          unfold InGrid
          simp only
          omega
        · exact h
      exact ⟨false, by rw [if_neg hl]⟩

theorem dfsDepth_land (fuel : Nat) {i j : Int} {grid : Grid}
    (hc : ¬ (i = rows grid - 1 ∧ j = cols grid - 1)) (hin : InGrid grid (i, j))
    (hl : cell grid i j = 1) :
    dfsDepth (fuel + 1) i j grid =
      match dfsDepth fuel (i + 1) j (setCell grid i j 0) with
      | none => none
      | some (d1, true, grid2) => some (d1 + 1, true, grid2)
      | some (d1, false, grid2) =>
        match dfsDepth fuel i (j + 1) grid2 with
        | none => none
        | some (d2, b, grid3) => some (max d1 d2 + 1, b, grid3) := by
  have : ¬ (i < 0 ∨ i ≥ rows grid ∨ j < 0 ∨ j ≥ cols grid) := by
    unfold InGrid at hin
    simp only at hin
    omega
  simp only [dfsDepth]
  rw [if_neg hc, if_neg this, if_pos hl]

/-- Dropping the counter of `dfsDepth` gives `dfs`. -/
theorem dfsDepth_snd : ∀ (fuel : Nat) (i j : Int) (grid : Grid),
    (dfsDepth fuel i j grid).map Prod.snd = dfs fuel i j grid := by
  intro fuel
  induction fuel with
  | zero => intro i j grid; rfl
  | succ fuel ih =>
    intro i j grid
    simp only [dfsDepth, dfs]
    split
    · rfl
    · split
      · rfl
      · split
        · rw [← ih (i + 1) j (setCell grid i j 0)]
          cases h1 : dfsDepth fuel (i + 1) j (setCell grid i j 0) with
          | none => rfl
          | some r =>
            obtain ⟨d1, b1, g2⟩ := r
            cases b1 with
            | true => rfl
            | false =>
              simp only [Option.map_some']
              rw [← ih i (j + 1) g2]
              cases h2 : dfsDepth fuel i (j + 1) g2 with
              | none => rfl
              | some r2 => rfl
        · rfl

/-- The probe keeps the size of the grid. -/
theorem dfs_dims : ∀ (fuel : Nat) (i j : Int) (grid : Grid) (b : Bool) (grid' : Grid),
    dfs fuel i j grid = some (b, grid') → rows grid' = rows grid ∧ cols grid' = cols grid := by
  intro fuel
  induction fuel with
  | zero => intro i j grid b grid' h; cases h
  | succ fuel ih =>
    intro i j grid b grid' h
    simp only [dfs] at h
    split at h
    · cases h; exact ⟨rfl, rfl⟩
    · split at h
      · cases h; exact ⟨rfl, rfl⟩
      · split at h
        · cases h1 : dfs fuel (i + 1) j (setCell grid i j 0) with
          | none => rw [h1] at h; cases h
          | some r =>
            obtain ⟨b1, g2⟩ := r
            rw [h1] at h
            have hd := ih _ _ _ _ _ h1
            rw [rows_setCell, cols_setCell] at hd
            cases b1 with
            | true =>
              cases h
              exact hd
            | false =>
              have hd2 := ih _ _ _ _ _ h
              exact ⟨hd2.1.trans hd.1, hd2.2.trans hd.2⟩
        · cases h; exact ⟨rfl, rfl⟩

/-- The depth of nested calls of a probe from `(i, j)` is at most
`rows - i + (cols - j)`, and 1 where that is less. -/
theorem dfsDepth_bound : ∀ (fuel : Nat) (i j : Int) (grid : Grid) (d : Nat) (b : Bool)
    (grid' : Grid), dfsDepth fuel i j grid = some (d, b, grid') →
    (d : Int) ≤ max 1 (rows grid - i + (cols grid - j)) := by
  intro fuel
  induction fuel with
  | zero => intro i j grid d b grid' h; cases h
  | succ fuel ih =>
    intro i j grid d b grid' h
    by_cases hleaf : (i = rows grid - 1 ∧ j = cols grid - 1) ∨ ¬ InGrid grid (i, j) ∨
        cell grid i j ≠ 1
    · obtain ⟨b', e⟩ := dfsDepth_leaf fuel hleaf
      rw [e] at h
      cases h
      simp
    · have hc : ¬ (i = rows grid - 1 ∧ j = cols grid - 1) := fun hc => hleaf (Or.inl hc)
      have hin : InGrid grid (i, j) := by
        by_contra hin
        exact hleaf (Or.inr (Or.inl hin))
      have hl : cell grid i j = 1 := by
        by_contra hl
        exact hleaf (Or.inr (Or.inr hl))
      obtain ⟨hi0, hi1, hj0, hj1⟩ := id hin
      simp only at hi0 hi1 hj0 hj1
      rw [dfsDepth_land fuel hc hin hl] at h
      cases h1 : dfsDepth fuel (i + 1) j (setCell grid i j 0) with
      | none => rw [h1] at h; cases h
      | some r =>
        obtain ⟨d1, b1, g2⟩ := r
        rw [h1] at h
        have hb1 := ih _ _ _ _ _ _ h1
        rw [rows_setCell, cols_setCell] at hb1
        have hdfs : dfs fuel (i + 1) j (setCell grid i j 0) = some (b1, g2) := by
          rw [← dfsDepth_snd, h1]
          rfl
        have hd := dfs_dims _ _ _ _ _ _ hdfs
        rw [rows_setCell, cols_setCell] at hd
        cases b1 with
        | true =>
          cases h
          push_cast
          omega
        | false =>
          simp only at h
          cases h2 : dfsDepth fuel i (j + 1) g2 with
          | none => rw [h2] at h; cases h
          | some r2 =>
            obtain ⟨d2, b2, g3⟩ := r2
            rw [h2] at h
            have hb2 := ih _ _ _ _ _ _ h2
            rw [hd.1, hd.2] at hb2
            cases h
            push_cast
            omega

/-- C15: on a rectangular grid with at least one row and one column, the probe
started at `(0, 0)` returns, and the depth of nested calls it reaches is at
most `rows + cols`. -/
theorem dfsDepth_le_rows_add_cols (grid : Grid) (fuel : Nat) (hr : Rect grid)
    (hf : rows grid + cols grid ≤ fuel) :
    ∃ d b grid', dfsDepth fuel 0 0 grid = some (d, b, grid') ∧
      dfs fuel 0 0 grid = some (b, grid') ∧ (d : Int) ≤ rows grid + cols grid := by
  obtain ⟨hm, hn, _⟩ := id hr
  obtain ⟨b, g', e, _⟩ := dfs_spec fuel 0 0 grid hr (by omega) (by intro _; omega)
  have hs := dfsDepth_snd fuel 0 0 grid
  rw [e] at hs
  cases h : dfsDepth fuel 0 0 grid with
  | none => rw [h] at hs; cases hs
  | some r =>
    obtain ⟨d, b', g''⟩ := r
    rw [h] at hs
    simp only [Option.map_some', Option.some.injEq, Prod.mk.injEq] at hs
    obtain ⟨rfl, rfl⟩ := hs
    have hb := dfsDepth_bound fuel 0 0 grid d b' g'' h
    refine ⟨d, b', g'', rfl, e, ?_⟩
    omega

/-- C15 at the 3x3 grid of LAND cells with fuel 6. -/
theorem dfsDepth_le_rows_add_cols_witness :
    ∃ d b grid', dfsDepth 6 0 0 [[1, 1, 1], [1, 1, 1], [1, 1, 1]] = some (d, b, grid') ∧
      dfs 6 0 0 [[1, 1, 1], [1, 1, 1], [1, 1, 1]] = some (b, grid') ∧
      (d : Int) ≤ rows [[1, 1, 1], [1, 1, 1], [1, 1, 1]] + cols [[1, 1, 1], [1, 1, 1], [1, 1, 1]] :=
  dfsDepth_le_rows_add_cols [[1, 1, 1], [1, 1, 1], [1, 1, 1]] 6 rect_example_b (by decide)

/-! ## Cell values other than 1 -/

theorem rows_normalize (grid : Grid) : rows (normalize grid) = rows grid := by
  simp [rows, normalize]

theorem cols_normalize (grid : Grid) : cols (normalize grid) = cols grid := by
  cases grid <;> simp [cols, normalize]

theorem getD_normalize (grid : Grid) (k : Nat) :
    (normalize grid).getD k [] =
      (grid.getD k []).map (fun v => if v = 1 then 1 else 0) :=
  List.getD_map grid [] (fun r : List Int => r.map (fun v => if v = 1 then 1 else 0))

theorem cell_normalize (grid : Grid) (i j : Int) :
    cell (normalize grid) i j = if cell grid i j = 1 then 1 else 0 := by
  unfold cell
  split
  · rw [getD_normalize]
    exact List.getD_map (grid.getD i.toNat []) 0 (fun v : Int => if v = 1 then 1 else 0)
  · simp

theorem setCell_normalize (grid : Grid) (i j v : Int) (hv : v = 0 ∨ v = 1) :
    setCell (normalize grid) i j v = normalize (setCell grid i j v) := by
  have hfv : (if v = 1 then (1 : Int) else 0) = v := by
    rcases hv with rfl | rfl <;> simp
  unfold setCell
  split
  · rw [getD_normalize]
    unfold normalize
    rw [List.map_set, List.map_set, hfv]
  · rfl

/-- The probe on the normalised grid does what it does on the grid, and leaves
the normalised grid. -/
theorem dfs_normalize : ∀ (fuel : Nat) (i j : Int) (grid : Grid),
    dfs fuel i j (normalize grid) =
      (dfs fuel i j grid).map (fun r => (r.1, normalize r.2)) := by
  intro fuel
  induction fuel with
  | zero => intro i j grid; rfl
  | succ fuel ih =>
    intro i j grid
    have hland : cell (normalize grid) i j = 1 ↔ cell grid i j = 1 := by
      rw [cell_normalize]
      split <;> simp [*]
    simp only [dfs, rows_normalize, cols_normalize]
    split
    · rfl
    · split
      · rfl
      · by_cases hl : cell grid i j = 1
        · rw [if_pos (hland.2 hl), if_pos hl, setCell_normalize _ _ _ _ (Or.inl rfl), ih]
          cases h1 : dfs fuel (i + 1) j (setCell grid i j 0) with
          | none => rfl
          | some r =>
            obtain ⟨b1, g2⟩ := r
            cases b1 with
            | true => rfl
            | false =>
              simp only [Option.map_some']
              exact ih i (j + 1) g2
        · rw [if_neg (fun h => hl (hland.1 h)), if_neg hl]
          rfl

theorem isPossibleToCutPath_normalize_eq (fuel : Nat) (grid : Grid) :
    isPossibleToCutPath fuel (normalize grid) = isPossibleToCutPath fuel grid := by
  unfold isPossibleToCutPath
  simp only [rows_normalize, cols_normalize]
  rw [dfs_normalize]
  cases h1 : dfs fuel 0 0 grid with
  | none => rfl
  | some r =>
    obtain ⟨b1, g1⟩ := r
    simp only [Option.map_some']
    rw [setCell_normalize _ _ _ _ (Or.inr rfl), setCell_normalize _ _ _ _ (Or.inr rfl),
      dfs_normalize]
    cases h2 : dfs fuel 0 0 (setCell (setCell g1 0 0 1) (rows grid - 1) (cols grid - 1) 1) with
    | none => rfl
    | some r2 => rfl

/-- C16: on a rectangular grid of integers, `isPossibleToCutPath` returns, and
it returns the same on the grid in which each cell equal to 1 is kept and
every other cell is replaced by 0. -/
theorem isPossibleToCutPath_normalize (grid : Grid) (fuel : Nat) (hr : Rect grid)
    (hf : rows grid + cols grid ≤ fuel) :
    ∃ b, isPossibleToCutPath fuel grid = some b ∧
      isPossibleToCutPath fuel (normalize grid) = some b := by
  obtain ⟨_, _, b2, _, _, _, e⟩ := isPossibleToCutPath_spec fuel grid hr hf
  exact ⟨!b2, e, by rw [isPossibleToCutPath_normalize_eq, e]⟩

/-- C16 at the grid `[[1,2],[-3,1]]` with fuel 4. -/
theorem isPossibleToCutPath_normalize_witness :
    ∃ b, isPossibleToCutPath 4 [[1, 2], [-3, 1]] = some b ∧
      isPossibleToCutPath 4 (normalize [[1, 2], [-3, 1]]) = some b :=
  isPossibleToCutPath_normalize [[1, 2], [-3, 1]] 4 (by unfold Rect rows cols; decide)
    (by decide)

/-! ## The transposed grid -/

theorem rows_transpose (grid : Grid) : rows (transpose grid) = cols grid := by
  unfold transpose rows
  rw [List.length_map, List.length_range]
  exact Int.toNat_of_nonneg (cols_nonneg grid)

theorem getD_transpose (grid : Grid) {k : Nat} (hk : (k : Int) < cols grid) :
    (transpose grid).getD k [] = grid.map (fun r => r.getD k 0) := by
  have hlt : k < (cols grid).toNat := by omega
  unfold transpose
  rw [List.getD_eq_getElem _ _ (by rw [List.length_map, List.length_range]; exact hlt)]
  rw [List.getElem_map, List.getElem_range]

theorem cols_transpose {grid : Grid} (hr : Rect grid) : cols (transpose grid) = rows grid := by
  have h0 := getD_transpose grid (k := 0) (by exact_mod_cast hr.2.1)
  have hh : (transpose grid).headD [] = (transpose grid).getD 0 [] := by
    cases transpose grid <;> rfl
  unfold cols
  rw [hh, h0, List.length_map]
  rfl

theorem rect_transpose {grid : Grid} (hr : Rect grid) : Rect (transpose grid) := by
  refine ⟨by rw [rows_transpose]; exact hr.2.1, by rw [cols_transpose hr]; exact hr.1, ?_⟩
  intro r hmem
  rw [cols_transpose hr]
  unfold transpose at hmem
  obtain ⟨k, _, rfl⟩ := List.mem_map.1 hmem
  rw [List.length_map]
  rfl

/-- The cell `(j, i)` of the transposed grid is the cell `(i, j)` of the grid. -/
theorem cell_transpose {grid : Grid} (hr : Rect grid) (i j : Int) :
    cell (transpose grid) j i = cell grid i j := by
  by_cases hin : InGrid grid (i, j)
  · obtain ⟨hi0, hi1, hj0, hj1⟩ := hin
    simp only at hi0 hi1 hj0 hj1
    have hilt : i.toNat < grid.length := by unfold rows at hi1; omega
    unfold cell
    rw [if_pos ⟨hj0, hi0⟩, if_pos ⟨hi0, hj0⟩, getD_transpose grid (by omega)]
    rw [List.getD_eq_getElem _ _ (by rw [List.length_map]; exact hilt), List.getElem_map,
      List.getD_eq_getElem grid [] hilt]
  · have h1 : cell grid i j = 0 := by
      by_contra h
      have hne : cell grid i j ≠ 1 := fun h1 => hin (inGrid_of_land hr h1)
      unfold cell at h hne
      split at h
      · rename_i hij
        by_cases hilt : i.toNat < grid.length
        · rw [List.getD_eq_getElem grid [] hilt] at h
          have hlen := hr.2.2 _ (List.getElem_mem hilt)
          by_cases hjlt : j.toNat < (grid[i.toNat]).length
          · apply hin
            unfold InGrid rows
            simp only
            omega
          · exact h (List.getD_eq_default _ 0 (by omega))
        · rw [List.getD_eq_default grid [] (by omega)] at h
          exact h rfl
      · exact h rfl
    have h2 : cell (transpose grid) j i = 0 := by
      by_contra h
      unfold cell at h
      split at h
      · rename_i hji
        by_cases hjlt : j < cols grid
        · rw [getD_transpose grid (k := j.toNat) (by omega)] at h
          by_cases hilt : i.toNat < grid.length
          · apply hin
            unfold InGrid rows
            simp only
            omega
          · exact h (List.getD_eq_default _ 0 (by rw [List.length_map]; omega))
        · have hlen : (transpose grid).length ≤ j.toNat := by
            have := rows_transpose grid
            unfold rows at this
            omega
          rw [List.getD_eq_default (transpose grid) [] hlen] at h
          exact h rfl
      · exact h rfl
    rw [h1, h2]

theorem CornerPath.swap {m n : Int} {ok : Int → Int → Prop} {i j : Int}
    (h : CornerPath m n ok i j) : CornerPath n m (fun a b => ok b a) j i := by
  induction h with
  | corner => exact CornerPath.corner
  | down h _ ih => exact CornerPath.right h ih
  | right h _ ih => exact CornerPath.down h ih

/-- As `CornerPath.weaken`, the corner itself left out. -/
theorem CornerPath.weaken_inner {m n : Int} {ok ok' : Int → Int → Prop} {i j : Int}
    (h : CornerPath m n ok i j)
    (hok : ∀ a c, ¬ (a = m - 1 ∧ c = n - 1) → ok a c → ok' a c) :
    CornerPath m n ok' i j := by
  induction h with
  | corner => exact CornerPath.corner
  | @down i j hij _ ih =>
    by_cases hc : i = m - 1 ∧ j = n - 1
    · obtain ⟨rfl, rfl⟩ := hc
      exact CornerPath.corner
    · exact CornerPath.down (hok i j hc hij) ih
  | @right i j hij _ ih =>
    by_cases hc : i = m - 1 ∧ j = n - 1
    · obtain ⟨rfl, rfl⟩ := hc
      exact CornerPath.corner
    · exact CornerPath.right (hok i j hc hij) ih

/-- Reaching the corner in a grid whose cells mirror those of another. -/
theorem toCorner_of_swap {grid grid' : Grid} (hrows : rows grid' = cols grid)
    (hcols : cols grid' = rows grid)
    (hcell : ∀ a c, ¬ (a = rows grid - 1 ∧ c = cols grid - 1) →
      cell grid a c = 1 → cell grid' c a = 1)
    {i j : Int} (h : ToCorner grid i j) : ToCorner grid' j i := by
  unfold ToCorner at h ⊢
  rw [hrows, hcols]
  exact (h.weaken_inner hcell).swap

/-! ## The check, whatever the corners hold -/

/-- A walk to the corner meets every anti-diagonal before that of the corner. -/
theorem toCorner_mid {grid : Grid} {i j : Int} (h : ToCorner grid i j) (k : Int)
    (h1 : i + j ≤ k) (h2 : k < rows grid - 1 + (cols grid - 1)) :
    ∃ c d, c + d = k ∧ Reach grid i j c d ∧ ToCorner grid c d := by
  unfold ToCorner at h ⊢
  induction h with
  | corner => omega
  | @down i j hij hp ih =>
    by_cases hk : i + j = k
    · exact ⟨i, j, hk, Reach.refl hij, CornerPath.down hij hp⟩
    · obtain ⟨c, d, hcd, hl, hr⟩ := ih (by omega)
      exact ⟨c, d, hcd, Reach.down hij hl, hr⟩
  | @right i j hij hp ih =>
    by_cases hk : i + j = k
    · exact ⟨i, j, hk, Reach.refl hij, CornerPath.right hij hp⟩
    · obtain ⟨c, d, hcd, hl, hr⟩ := ih (by omega)
      exact ⟨c, d, hcd, Reach.right hij hl, hr⟩

/-- A cell on both greedy walks from the source, not the corner, is on every
walk from the source to the corner, whatever the corner holds. -/
theorem no_toCorner_of_low_high {grid : Grid} (hr : Rect grid) {x y : Int}
    (hin : InGrid grid (x, y)) (hnc : ¬ (x = rows grid - 1 ∧ y = cols grid - 1))
    (hlow : Low grid (0, 0) (x, y)) (hhigh : High grid (0, 0) (x, y)) :
    ¬ ToCorner (setCell grid x y 0) 0 0 := by
  intro hcor
  obtain ⟨hx0, hx1, hy0, hy1⟩ := id hin
  simp only at hx0 hx1 hy0 hy1
  obtain ⟨c, d, hcd, h1, h2⟩ := toCorner_mid hcor (x + y) (by omega) (by
    rw [rows_setCell, cols_setCell]
    omega)
  have hle : ∀ a b, cell (setCell grid x y 0) a b = 1 → cell grid a b = 1 := by
    intro a b hab
    rw [cell_setCell hr hin] at hab
    split at hab
    · omega
    · exact hab
  have hcor2 : ToCorner grid c d := by
    unfold ToCorner at h2 ⊢
    rw [rows_setCell, cols_setCell] at h2
    exact h2.weaken hle
  have hlo := hlow.lowest c d (h1.mono_land hle) hcor2 hcd
  have hhi := hhigh.highest c d (h1.mono_land hle) hcor2 hcd
  simp only at hlo hhi
  have hc : c = x := by omega
  have hd : d = y := by omega
  subst hc hd
  have := h1.land_right
  rw [cell_setCell hr hin] at this
  simp at this

/-- When no inner cell lies on both greedy walks of a grid with a walk from
the source to the corner, the second probe succeeds. -/
theorem second_probe_of_no_common {grid g1 : Grid} {b1 : Bool} (hr : Rect grid)
    (p1 : ProbePost grid 0 0 b1 g1) (hg : ToCorner grid 0 0)
    (hno : ∀ x y, ¬ (x = 0 ∧ y = 0) → ¬ (x = rows grid - 1 ∧ y = cols grid - 1) →
      ¬ (Low grid (0, 0) (x, y) ∧ High grid (0, 0) (x, y))) :
    ToCorner (setCell (setCell g1 0 0 1) (rows grid - 1) (cols grid - 1) 1) 0 0 := by
  have hcell := cell_restore p1.rect p1.rows_eq p1.cols_eq
  obtain ⟨hm, hn, _⟩ := id hr
  have main : ∀ k : Nat, ∀ x y, High grid (0, 0) (x, y) → ToCorner grid x y →
      rows grid + cols grid - 2 - (x + y) ≤ k →
      CornerPath (rows grid) (cols grid)
        (fun a c =>
          cell (setCell (setCell g1 0 0 1) (rows grid - 1) (cols grid - 1) 1) a c = 1) x y := by
    intro k
    induction k with
    | zero =>
      intro x y _ hcor hk
      have := CornerPath.bounds hcor
      have hx : x = rows grid - 1 := by omega
      have hy : y = cols grid - 1 := by omega
      subst hx hy
      exact CornerPath.corner
    | succ k ih =>
      intro x y hhigh hcor hk
      by_cases hnc : x = rows grid - 1 ∧ y = cols grid - 1
      · obtain ⟨rfl, rfl⟩ := hnc
        exact CornerPath.corner
      obtain ⟨t, hstep, hdiag⟩ := exists_highStep hcor hnc
      have hnext := ih t.1 t.2 (Relation.ReflTransGen.tail hhigh hstep) hstep.2.1 (by omega)
      have hl : cell grid x y = 1 := hstep.1
      have hland :
          cell (setCell (setCell g1 0 0 1) (rows grid - 1) (cols grid - 1) 1) x y = 1 := by
        rw [hcell, if_neg hnc]
        split
        · rfl
        · rename_i h0
          by_contra hne
          rcases p1.changed x y (by rw [hl]; exact hne) with hdead | hlow
          · exact hdead hcor
          · exact hno x y h0 hnc ⟨hlow, hhigh⟩
      rcases hstep.2.2 with ht | ⟨ht, _⟩
      · rw [ht] at hnext
        exact CornerPath.right hland hnext
      · rw [ht] at hnext
        exact CornerPath.down hland hnext
  have := main (rows grid + cols grid).toNat 0 0 Relation.ReflTransGen.refl hg (by omega)
  unfold ToCorner
  rw [rows_setCell, cols_setCell, rows_setCell, cols_setCell, p1.rows_eq, p1.cols_eq]
  exact this

/-- With a LAND source, the second probe fails exactly when some inner cell,
once set to WATER, cuts the source from the corner. -/
theorem second_probe_iff_no_cut {grid g1 : Grid} {b1 : Bool} (hr : Rect grid)
    (hs : cell grid 0 0 = 1) (p1 : ProbePost grid 0 0 b1 g1) :
    ¬ ToCorner (setCell (setCell g1 0 0 1) (rows grid - 1) (cols grid - 1) 1) 0 0 ↔
      ∃ x y, InGrid grid (x, y) ∧ ¬ (x = 0 ∧ y = 0) ∧
        ¬ (x = rows grid - 1 ∧ y = cols grid - 1) ∧ ¬ ToCorner (setCell grid x y 0) 0 0 := by
  have hcell := cell_restore p1.rect p1.rows_eq p1.cols_eq
  obtain ⟨hm, hn, _⟩ := id hr
  have hle : ∀ a c, ¬ (a = rows grid - 1 ∧ c = cols grid - 1) →
      cell (setCell (setCell g1 0 0 1) (rows grid - 1) (cols grid - 1) 1) a c = 1 →
        cell grid a c = 1 := by
    intro a c hnc hac
    rw [hcell, if_neg hnc] at hac
    split at hac
    · rename_i h; obtain ⟨rfl, rfl⟩ := h; exact hs
    · exact p1.frame.land hac
  have hcutle : ∀ x y, InGrid grid (x, y) → ∀ a c,
      cell (setCell grid x y 0) a c = 1 → cell grid a c = 1 := by
    intro x y hin a c hac
    rw [cell_setCell hr hin] at hac
    split at hac
    · omega
    · exact hac
  constructor
  · intro h2
    by_cases hg : ToCorner grid 0 0
    · by_contra hnone
      apply h2
      refine second_probe_of_no_common hr p1 hg (fun x y h0 hnc hboth => ?_)
      have hin : InGrid grid (x, y) := by
        rcases Relation.ReflTransGen.cases_tail hboth.1 with h | ⟨t, _, hstep⟩
        · exact absurd ⟨congrArg Prod.fst h, congrArg Prod.snd h⟩ h0
        · exact inGrid_of_land hr ((CornerPath.cases_ne hstep.2.1 hnc).1)
      exact hnone ⟨x, y, hin, h0, hnc, no_toCorner_of_low_high hr hin hnc hboth.1 hboth.2⟩
    · have hnone : ∀ x y, InGrid grid (x, y) → ¬ ToCorner (setCell grid x y 0) 0 0 := by
        intro x y hin hcor
        apply hg
        unfold ToCorner at hcor ⊢
        rw [rows_setCell, cols_setCell] at hcor
        exact hcor.weaken (hcutle x y hin)
      have hcorner : ToCorner grid (rows grid - 1) (cols grid - 1) := CornerPath.corner
      by_cases hn2 : 2 ≤ cols grid
      · by_cases h12 : rows grid = 1 ∧ cols grid = 2
        · exfalso
          apply hg
          rw [h12.1, h12.2] at hcorner
          exact CornerPath.right hs (by simpa using hcorner)
        · have hin : InGrid grid (0, 1) := by unfold InGrid; simp only; omega
          exact ⟨0, 1, hin, by omega, by omega, hnone 0 1 hin⟩
      · have hc1 : cols grid = 1 := by omega
        by_cases h11 : rows grid = 1
        · exfalso
          apply hg
          rw [h11, hc1] at hcorner
          simpa using hcorner
        by_cases h21 : rows grid = 2
        · exfalso
          apply hg
          rw [h21, hc1] at hcorner
          exact CornerPath.down hs (by simpa using hcorner)
        · have hin : InGrid grid (1, 0) := by unfold InGrid; simp only; omega
          exact ⟨1, 0, hin, by omega, by omega, hnone 1 0 hin⟩
  · rintro ⟨x, y, hin, h0, hnc, hcut⟩ h2
    apply hcut
    unfold ToCorner at h2
    rw [rows_setCell, cols_setCell, rows_setCell, cols_setCell, p1.rows_eq, p1.cols_eq] at h2
    have hb1 : b1 = true := p1.ret.2 (h2.weaken_inner hle)
    unfold ToCorner
    rw [rows_setCell, cols_setCell]
    by_cases hcl : cell (setCell (setCell g1 0 0 1) (rows grid - 1) (cols grid - 1) 1) x y = 1
    · have hc1 : cell g1 x y = 1 := by
        rw [hcell, if_neg hnc, if_neg h0] at hcl
        exact hcl
      refine (p1.cleared hb1).weaken (fun a c h => ?_)
      rw [cell_setCell hr hin, if_neg]
      · exact h.1
      · rintro ⟨rfl, rfl⟩
        omega
    · refine h2.weaken_inner (fun a c hac h => ?_)
      rw [cell_setCell hr hin, if_neg]
      · exact hle a c hac h
      · rintro ⟨rfl, rfl⟩
        exact hcl h

/-- With a source that is not LAND, the first probe changes nothing, and the
second probe runs on the grid with the source set to LAND. -/
theorem second_probe_of_water_source {grid g1 : Grid} {b1 : Bool} (hr : Rect grid)
    (hw : cell grid 0 0 ≠ 1) (p1 : ProbePost grid 0 0 b1 g1) :
    ToCorner (setCell (setCell g1 0 0 1) (rows grid - 1) (cols grid - 1) 1) 0 0 ↔
      ToCorner (setCell grid 0 0 1) 0 0 := by
  have hcell := cell_restore p1.rect p1.rows_eq p1.cols_eq
  have hsame : ∀ a c, cell g1 a c = cell grid a c := by
    intro a c
    rcases p1.frame a c with h | ⟨_, _, hreach⟩
    · exact h
    · exact absurd hreach.land_left hw
  unfold ToCorner
  rw [rows_setCell, cols_setCell, rows_setCell, cols_setCell, p1.rows_eq, p1.cols_eq,
    rows_setCell, cols_setCell]
  constructor
  · intro h
    refine h.weaken_inner (fun a c hnc hac => ?_)
    rw [hcell, if_neg hnc, hsame] at hac
    rw [cell_setCell hr (inGrid_zero hr)]
    exact hac
  · intro h
    refine h.weaken_inner (fun a c hnc hac => ?_)
    rw [cell_setCell hr (inGrid_zero hr)] at hac
    rw [hcell, if_neg hnc, hsame]
    exact hac

/-- The answer of the check on a grid with a LAND source. -/
theorem isPossibleToCutPath_land_source (grid : Grid) (fuel : Nat) (hr : Rect grid)
    (hs : cell grid 0 0 = 1) (hf : rows grid + cols grid ≤ fuel) :
    ∃ b, isPossibleToCutPath fuel grid = some b ∧
      (b = true ↔ ∃ x y, InGrid grid (x, y) ∧ ¬ (x = 0 ∧ y = 0) ∧
        ¬ (x = rows grid - 1 ∧ y = cols grid - 1) ∧ ¬ ToCorner (setCell grid x y 0) 0 0) := by
  obtain ⟨b1, g1, b2, g3, p1, p2, e⟩ := isPossibleToCutPath_spec fuel grid hr hf
  refine ⟨!b2, e, ?_⟩
  rw [← second_probe_iff_no_cut hr hs p1, ← p2.ret]
  cases b2 <;> simp

/-- The answer of the check on a grid whose source is not LAND. -/
theorem isPossibleToCutPath_water_source (grid : Grid) (fuel : Nat) (hr : Rect grid)
    (hw : cell grid 0 0 ≠ 1) (hf : rows grid + cols grid ≤ fuel) :
    ∃ b, isPossibleToCutPath fuel grid = some b ∧
      (b = true ↔ ¬ ToCorner (setCell grid 0 0 1) 0 0) := by
  obtain ⟨b1, g1, b2, g3, p1, p2, e⟩ := isPossibleToCutPath_spec fuel grid hr hf
  refine ⟨!b2, e, ?_⟩
  rw [← second_probe_of_water_source hr hw p1, ← p2.ret]
  cases b2 <;> simp

theorem inGrid_transpose {grid : Grid} (hr : Rect grid) (x y : Int) :
    InGrid (transpose grid) (y, x) ↔ InGrid grid (x, y) := by
  unfold InGrid
  rw [rows_transpose, cols_transpose hr]
  simp only
  constructor <;> intro h <;> omega

/-- Writing a cell and reaching the corner, in the grid and in its transpose. -/
theorem toCorner_setCell_transpose {grid : Grid} (hr : Rect grid) {x y : Int}
    (hin : InGrid grid (x, y)) (v : Int) :
    ToCorner (setCell (transpose grid) y x v) 0 0 ↔ ToCorner (setCell grid x y v) 0 0 := by
  have hrt := rect_transpose hr
  have hint : InGrid (transpose grid) (y, x) := (inGrid_transpose hr x y).2 hin
  have hcell : ∀ a c, cell (setCell (transpose grid) y x v) c a = cell (setCell grid x y v) a c := by
    intro a c
    rw [cell_setCell hrt hint, cell_setCell hr hin, cell_transpose hr]
    by_cases h : a = x ∧ c = y
    · rw [if_pos ⟨h.2, h.1⟩, if_pos h]
    · rw [if_neg (fun h' => h ⟨h'.2, h'.1⟩), if_neg h]
  constructor
  · intro h
    refine toCorner_of_swap ?_ ?_ (fun a c _ hac => ?_) h
    · rw [rows_setCell, cols_setCell, cols_transpose hr]
    · rw [cols_setCell, rows_setCell, rows_transpose]
    · rw [← hcell]
      exact hac
  · intro h
    refine toCorner_of_swap ?_ ?_ (fun a c _ hac => ?_) h
    · rw [rows_setCell, cols_setCell, rows_transpose]
    · rw [cols_setCell, rows_setCell, cols_transpose hr]
    · rw [hcell]
      exact hac

/-- C18: on a rectangular grid with at least one row and one column,
`isPossibleToCutPath` returns the same on the grid and on its transpose, for
which the probe explores the columns in place of the rows first. -/
theorem isPossibleToCutPath_transpose (grid : Grid) (fuel : Nat) (hr : Rect grid)
    (hf : rows grid + cols grid ≤ fuel) :
    ∃ b, isPossibleToCutPath fuel grid = some b ∧
      isPossibleToCutPath fuel (transpose grid) = some b := by
  have hrt := rect_transpose hr
  have hft : rows (transpose grid) + cols (transpose grid) ≤ fuel := by
    rw [rows_transpose, cols_transpose hr]
    omega
  have h00 : cell (transpose grid) 0 0 = cell grid 0 0 := cell_transpose hr 0 0
  by_cases hs : cell grid 0 0 = 1
  · obtain ⟨b, e, hb⟩ := isPossibleToCutPath_land_source grid fuel hr hs hf
    obtain ⟨b', e', hb'⟩ :=
      isPossibleToCutPath_land_source (transpose grid) fuel hrt (by rw [h00]; exact hs) hft
    refine ⟨b, e, ?_⟩
    rw [e']
    have hiff : b' = true ↔ b = true := by
      rw [hb, hb', rows_transpose, cols_transpose hr]
      constructor
      · rintro ⟨y, x, hin, h0, hnc, hcut⟩
        have hin' := (inGrid_transpose hr x y).1 hin
        refine ⟨x, y, hin', fun h => h0 ⟨h.2, h.1⟩, fun h => hnc ⟨h.2, h.1⟩, fun h => hcut ?_⟩
        exact (toCorner_setCell_transpose hr hin' 0).2 h
      · rintro ⟨x, y, hin, h0, hnc, hcut⟩
        refine ⟨y, x, (inGrid_transpose hr x y).2 hin, fun h => h0 ⟨h.2, h.1⟩,
          fun h => hnc ⟨h.2, h.1⟩, fun h => hcut ?_⟩
        exact (toCorner_setCell_transpose hr hin 0).1 h
    cases b <;> cases b' <;> simp at hiff ⊢
  · obtain ⟨b, e, hb⟩ := isPossibleToCutPath_water_source grid fuel hr hs hf
    obtain ⟨b', e', hb'⟩ :=
      isPossibleToCutPath_water_source (transpose grid) fuel hrt (by rw [h00]; exact hs) hft
    refine ⟨b, e, ?_⟩
    rw [e']
    have hiff : b' = true ↔ b = true := by
      rw [hb, hb', toCorner_setCell_transpose hr (inGrid_zero hr) 1]
    cases b <;> cases b' <;> simp at hiff ⊢

/-- C18 at the grid `[[1,1,1],[0,0,1]]`, whose transpose is
`[[1,0],[1,0],[1,1]]`, with fuel 5. -/
theorem isPossibleToCutPath_transpose_witness :
    ∃ b, isPossibleToCutPath 5 [[1, 1, 1], [0, 0, 1]] = some b ∧
      isPossibleToCutPath 5 (transpose [[1, 1, 1], [0, 0, 1]]) = some b :=
  isPossibleToCutPath_transpose [[1, 1, 1], [0, 0, 1]] 5 (by unfold Rect rows cols; decide)
    (by decide)

end DisconnectPath
